import Mathlib

set_option maxRecDepth 8192

/-!
Verification of the decision-filter core of claude-code-boost.

This file shallowly embeds the code that the claims concern:

* `src/utils/cache.ts` — the persistent, directory-scoped decision cache
  (`generateCacheKey`, `migrateLegacyCache`, `loadCache`, `saveCache`,
  `getCachedDecision`, `setCachedDecision`, `clearCache`);
* `src/types/hook-schemas.ts` — the zod schemas for cache entries
  (`parseApprovalCache`) and tool decisions;
* `src/commands/auto-approve-tools.ts` — the fast-path classifier
  (`shouldFastApprove`) and the orchestrator (`autoApproveTools`).

Modelling conventions:

* JavaScript values flowing through `JSON.parse` / `JSON.stringify` are
  embedded as the inductive `Json`.  An object is its field list in JS
  insertion order; `jsFields` normalises duplicate keys the way JS object
  construction does (first occurrence fixes the position, the last
  assignment fixes the value), so a `Json.obj` with duplicate keys denotes
  the JS object the raw text would parse to.
* The persisted cache file is modelled by `FileContent` at the granularity
  of its parse image: `absent` (no file), `unparseable` (any text that
  makes `JSON.parse` throw `SyntaxError`), or `parsed j` (any text that
  parses to the JS value `j`).  `saveCache` writes
  `JSON.stringify(cache, null, 2)`, whose parse image is exactly the
  serialised cache value, so whole-file rewrites are `parsed (cacheToJson c)`.
* `new Date().toISOString()` is an explicit `now : String` argument.
* Node's `createHash('sha256')` is implemented in full: `sha256Hex` below is
  executable SHA-256 over the UTF-8 bytes of the serialised request, checked
  against the FIPS 180-4 test vectors.
* The effectful TypeScript functions become state-passing functions; the one
  remote call (`queryLLM`) becomes an oracle argument
  `llmResult : Except String ToolDecision` covering a successful structured
  response and every failure mode (transport error, empty content,
  unparseable content).  `process.exit` / `stdout` / `stderr` become fields
  of `RunResult`.
-/

/-! ### SHA-256 (Node `createHash('sha256').digest('hex')`) -/

/-- 2^32, the word modulus of SHA-256. -/
def w32 : Nat := 4294967296

/-- Addition modulo 2^32. -/
def madd (a b : Nat) : Nat := (a + b) % w32

/-- Right rotation of a 32-bit word. -/
def rotr (n x : Nat) : Nat :=
  ((x >>> n) ||| (x <<< (32 - n))) % w32

/-- SHA-256 `Ch` function. -/
def shaCh (x y z : Nat) : Nat := (x &&& y) ^^^ ((x ^^^ 4294967295) &&& z)

/-- SHA-256 `Maj` function. -/
def shaMaj (x y z : Nat) : Nat := (x &&& y) ^^^ (x &&& z) ^^^ (y &&& z)

/-- SHA-256 Σ₀. -/
def bigSigma0 (x : Nat) : Nat := rotr 2 x ^^^ rotr 13 x ^^^ rotr 22 x

/-- SHA-256 Σ₁. -/
def bigSigma1 (x : Nat) : Nat := rotr 6 x ^^^ rotr 11 x ^^^ rotr 25 x

/-- SHA-256 σ₀. -/
def smallSigma0 (x : Nat) : Nat := rotr 7 x ^^^ rotr 18 x ^^^ (x >>> 3)

/-- SHA-256 σ₁. -/
def smallSigma1 (x : Nat) : Nat := rotr 17 x ^^^ rotr 19 x ^^^ (x >>> 10)

/-- The 64 SHA-256 round constants. -/
def shaK : List Nat :=
  [1116352408, 1899447441, 3049323471, 3921009573, 961987163,
   1508970993, 2453635748, 2870763221, 3624381080, 310598401,
   607225278, 1426881987, 1925078388, 2162078206, 2614888103,
   3248222580, 3835390401, 4022224774, 264347078, 604807628,
   770255983, 1249150122, 1555081692, 1996064986, 2554220882,
   2821834349, 2952996808, 3210313671, 3336571891, 3584528711,
   113926993, 338241895, 666307205, 773529912, 1294757372,
   1396182291, 1695183700, 1986661051, 2177026350, 2456956037,
   2730485921, 2820302411, 3259730800, 3345764771, 3516065817,
   3600352804, 4094571909, 275423344, 430227734, 506948616,
   659060556, 883997877, 958139571, 1322822218, 1537002063,
   1747873779, 1955562222, 2024104815, 2227730452, 2361852424,
   2428436474, 2756734187, 3204031479, 3329325298]

/-- The initial SHA-256 hash state. -/
def shaH0 : List Nat :=
  [1779033703, 3144134277, 1013904242, 2773480762,
   1359893119, 2600822924, 528734635, 1541459225]

/-- Pad a byte string per SHA-256: append 0x80, zeros, and the 64-bit
big-endian bit length. -/
def shaPad (msg : List Nat) : List Nat :=
  let len := msg.length
  let zeroCount := (64 - ((len + 9) % 64)) % 64
  let bitLen := len * 8
  msg ++ [0x80] ++ List.replicate zeroCount 0 ++
    [(bitLen >>> 56) % 256, (bitLen >>> 48) % 256, (bitLen >>> 40) % 256,
     (bitLen >>> 32) % 256, (bitLen >>> 24) % 256, (bitLen >>> 16) % 256,
     (bitLen >>> 8) % 256, bitLen % 256]

/-- Group bytes into 32-bit big-endian words (input length a multiple of 4). -/
def bytesToWords : List Nat → List Nat
  | b0 :: b1 :: b2 :: b3 :: rest =>
      (((b0 <<< 24) + (b1 <<< 16) + (b2 <<< 8) + b3) % w32) :: bytesToWords rest
  | _ => []

/-- Extend the 16 block words to the 64 schedule words.  The accumulator is
kept most-recent-first; the fuel counts the 48 remaining extensions. -/
def extendSchedule (acc : List Nat) : Nat → List Nat
  | 0 => acc.reverse
  | n + 1 =>
      match acc with
      | _ :: w2 :: _ :: _ :: _ :: _ :: w7 :: _ :: _ :: _ :: _ :: _ :: _ :: _ :: w15 :: w16 :: _ =>
          let nw := (smallSigma1 w2 + w7 + smallSigma0 w15 + w16) % w32
          extendSchedule (nw :: acc) n
      | _ => acc.reverse

/-- The 64-word message schedule of one block. -/
def schedule (ws : List Nat) : List Nat :=
  extendSchedule ws.reverse 48

/-- The eight working variables of the SHA-256 compression loop. -/
structure ShaState where
  a : Nat
  b : Nat
  c : Nat
  d : Nat
  e : Nat
  f : Nat
  g : Nat
  h : Nat

/-- One round of the SHA-256 compression function. -/
def compressStep (st : ShaState) (kw : Nat × Nat) : ShaState :=
  let t1 := (st.h + bigSigma1 st.e + shaCh st.e st.f st.g + kw.1 + kw.2) % w32
  let t2 := (bigSigma0 st.a + shaMaj st.a st.b st.c) % w32
  { a := (t1 + t2) % w32, b := st.a, c := st.b, d := st.c,
    e := (st.d + t1) % w32, f := st.e, g := st.f, h := st.g }

/-- Compress one 16-word block into the running hash. -/
def compressBlock (hs : List Nat) (block : List Nat) : List Nat :=
  match hs with
  | [h0, h1, h2, h3, h4, h5, h6, h7] =>
      let ws := schedule block
      let st0 : ShaState := ⟨h0, h1, h2, h3, h4, h5, h6, h7⟩
      let st := (shaK.zip ws).foldl compressStep st0
      [madd h0 st.a, madd h1 st.b, madd h2 st.c, madd h3 st.d,
       madd h4 st.e, madd h5 st.f, madd h6 st.g, madd h7 st.h]
  | _ => hs

/-- Chunk a word list into 16-word blocks; fuel-based so the kernel reduces it. -/
def chunkWords : Nat → List Nat → List (List Nat)
  | 0, _ => []
  | _, [] => []
  | fuel + 1, ws => ws.take 16 :: chunkWords fuel (ws.drop 16)

/-- The eight 32-bit words of the SHA-256 digest of a byte string. -/
def sha256Words (msg : List Nat) : List Nat :=
  let ws := bytesToWords (shaPad msg)
  (chunkWords ws.length ws).foldl compressBlock shaH0

/-- Lowercase hex digit, as Node's `digest('hex')` emits. -/
def hexDigit (n : Nat) : Char :=
  if n < 10 then Char.ofNat (48 + n) else Char.ofNat (87 + n)

/-- A 32-bit word as eight lowercase hex characters. -/
def wordToHex (w : Nat) : List Char :=
  [hexDigit ((w >>> 28) % 16), hexDigit ((w >>> 24) % 16),
   hexDigit ((w >>> 20) % 16), hexDigit ((w >>> 16) % 16),
   hexDigit ((w >>> 12) % 16), hexDigit ((w >>> 8) % 16),
   hexDigit ((w >>> 4) % 16), hexDigit (w % 16)]

/-- SHA-256 of a byte string as a 64-character lowercase hex string —
`createHash('sha256').update(data).digest('hex')`. -/
def sha256Hex (msg : List Nat) : String :=
  ⟨(sha256Words msg).foldr (fun w acc => wordToHex w ++ acc) []⟩

/-- FIPS 180-4 test vector: the empty message. -/
example : sha256Hex [] =
    "e3b0c44298fc1c149afbf4c8996fb92427ae41e4649b934ca495991b7852b855" := by
  decide

/-- FIPS 180-4 test vector: "abc". -/
example : sha256Hex [0x61, 0x62, 0x63] =
    "ba7816bf8f01cfea414140de5dae2223b00361a396177a9cb410ff61f20015ad" := by
  decide

/-! ### UTF-8 (Node hashes the update string's UTF-8 bytes) -/

/-- UTF-8 encoding of one code point. -/
def utf8Char (c : Char) : List Nat :=
  let n := c.toNat
  if n < 0x80 then [n]
  else if n < 0x800 then [0xC0 + n / 64, 0x80 + n % 64]
  else if n < 0x10000 then
    [0xE0 + n / 4096, 0x80 + (n / 64) % 64, 0x80 + n % 64]
  else
    [0xF0 + n / 262144, 0x80 + (n / 4096) % 64, 0x80 + (n / 64) % 64,
     0x80 + n % 64]

/-- UTF-8 bytes of a string. -/
def utf8Bytes (s : String) : List Nat :=
  s.data.foldr (fun c acc => utf8Char c ++ acc) []

/-! ### JavaScript values (`Json`) and `JSON.stringify` -/

/-- A JSON-representable JavaScript value.  Object fields are listed in JS
insertion order; numbers are restricted to integers (every number appearing
in the claims' inputs is one, and float formatting plays no role in any
claim). -/
inductive Json where
  | null : Json
  | bool (b : Bool) : Json
  | num (n : Int) : Json
  | str (s : String) : Json
  | arr (elems : List Json) : Json
  | obj (fields : List (String × Json)) : Json

/-- Two lowercase hex digits (for `\u00XX` escapes). -/
def hex2 (n : Nat) : List Char :=
  [hexDigit ((n / 16) % 16), hexDigit (n % 16)]

/-- ECMA-262 `QuoteJSONString` body for one character: escape the quote,
the backslash and control characters exactly as `JSON.stringify` does. -/
def escapeJsonChar (c : Char) : List Char :=
  if c = '"' then ['\\', '"']
  else if c = '\\' then ['\\', '\\']
  else if c.toNat = 8 then ['\\', 'b']
  else if c.toNat = 9 then ['\\', 't']
  else if c.toNat = 10 then ['\\', 'n']
  else if c.toNat = 12 then ['\\', 'f']
  else if c.toNat = 13 then ['\\', 'r']
  else if c.toNat < 32 then '\\' :: 'u' :: '0' :: '0' :: hex2 c.toNat
  else [c]

/-- A string as a quoted JSON string literal. -/
def quoteJson (s : String) : String :=
  ⟨'"' :: s.data.foldr (fun c acc => escapeJsonChar c ++ acc) ['"']⟩

/-- JS object-field normalisation: the first occurrence of a key fixes its
position in enumeration order, the last occurrence fixes its value — exactly
how repeated property assignment builds a JS object (e.g. from JSON text
with duplicate keys).  Fuel-based so the kernel reduces it; the fuel is the
list length, which dominates every recursive call. -/
def jsFieldsF : Nat → List (String × Json) → List (String × Json)
  | 0, _ => []
  | _, [] => []
  | fuel + 1, (k, v) :: rest =>
      (k, (rest.filter (fun p => p.1 == k)).foldl (fun _ p => p.2) v) ::
        jsFieldsF fuel (rest.filter (fun p => p.1 != k))

/-- The own enumerable properties of a JS object value, in enumeration order
(`Object.entries` on the object the field list denotes). -/
def jsFields (fs : List (String × Json)) : List (String × Json) :=
  jsFieldsF fs.length fs

mutual

/-- `JSON.stringify(v)` (compact form, no indent), for JSON-representable
values: the serialization Node hashes in `generateCacheKey`.  Fields are
serialized in list order: every `Json.obj` the embedded program builds or
parses lists its fields in JS enumeration order with no duplicate keys, so
this is exactly `JSON.stringify`'s property order. -/
def strJson : Json → String
  | .null => "null"
  | .bool true => "true"
  | .bool false => "false"
  | .num n => toString n
  | .str s => quoteJson s
  | .arr xs => "[" ++ strJsonList xs ++ "]"
  | .obj fs => "\x7b" ++ strJsonFields fs ++ "\x7d"

/-- Comma-separated serialization of array elements. -/
def strJsonList : List Json → String
  | [] => ""
  | [x] => strJson x
  | x :: y :: rest => strJson x ++ "," ++ strJsonList (y :: rest)

/-- Comma-separated serialization of object fields. -/
def strJsonFields : List (String × Json) → String
  | [] => ""
  | [(k, v)] => quoteJson k ++ ":" ++ strJson v
  | (k, v) :: p :: rest =>
      quoteJson k ++ ":" ++ strJson v ++ "," ++ strJsonFields (p :: rest)

end

/-! ### `generateCacheKey` (src/utils/cache.ts:17) -/

/-- The tool input as it reaches the cache: the parsed JS object
`Record<string, unknown>`, i.e. its field list in insertion order. -/
abbrev ToolInput := List (String × Json)

/-- src/utils/cache.ts:17 — the cache key is the SHA-256 hex digest of
`JSON.stringify({ toolName, toolInput })`, i.e. of the serialization in
property insertion order (toolName first, then the input's own key order). -/
def generateCacheKey (toolName : String) (toolInput : ToolInput) : String :=
  sha256Hex (utf8Bytes
    (strJson (.obj [("toolName", .str toolName), ("toolInput", .obj toolInput)])))

/-- Sanity: the serialization is the exact compact JSON text Node hashes. -/
example :
    strJson (.obj [("toolName", .str "Bash"),
                   ("toolInput", .obj [("a", .num 1), ("b", .num 2)])]) =
    "\x7b\"toolName\":\"Bash\",\"toolInput\":\x7b\"a\":1,\"b\":2\x7d\x7d" := by
  decide

/-! ### JS value helpers -/

/-- First-match association lookup (JS objects never hold duplicate keys, so
this is exactly property access on the in-memory caches). -/
def assocFind {α : Type} : List (String × α) → String → Option α
  | [], _ => none
  | (k', v) :: rest, k => if k' == k then some v else assocFind rest k

/-- JS property read on an object's field list: the last assignment to a key
is the value the object holds. -/
def jsGetField (fs : List (String × Json)) (k : String) : Option Json :=
  assocFind fs.reverse k

/-- JS property read `v[k]` on an arbitrary value (`undefined` is `none`;
arrays have no named own properties we ever read). -/
def jsProp (j : Json) (k : String) : Option Json :=
  match j with
  | .obj fs => jsGetField fs k
  | _ => none

/-- JS truthiness of a JSON-representable value. -/
def jsTruthy : Json → Bool
  | .null => false
  | .bool b => b
  | .num n => n != 0
  | .str s => s != ""
  | .arr _ => true
  | .obj _ => true

/-- `typeof v === 'object'` — true for objects, arrays, and `null`. -/
def jsTypeofObject : Json → Bool
  | .obj _ => true
  | .arr _ => true
  | .null => true
  | _ => false

/-- `Object.entries(v)`: enumeration order for objects, index keys for
arrays, empty for primitives. -/
def jsEntries : Json → List (String × Json)
  | .obj fs => jsFields fs
  | .arr xs => xs.enum.map (fun p => (toString p.1, p.2))
  | _ => []

/-- JS property assignment on an object's field list: an existing key keeps
its enumeration position and changes its value; a new key is appended. -/
def assocSet {α : Type} (xs : List (String × α)) (k : String) (v : α) :
    List (String × α) :=
  if xs.any (fun p => p.1 == k) then
    xs.map (fun p => if p.1 == k then (k, v) else p)
  else xs ++ [(k, v)]

/-! ### Cache data model (src/types/hook-schemas.ts) -/

/-- The two decision values the current cache schema admits
(`z.enum(['allow', 'deny'])`). -/
inductive CacheDecision where
  | allow : CacheDecision
  | deny : CacheDecision
deriving DecidableEq

/-- The decision's JSON string. -/
def CacheDecision.toStr : CacheDecision → String
  | .allow => "allow"
  | .deny => "deny"

/-- A cache entry as it exists at runtime.  `decision` is genuinely
two-valued (both producers — schema validation and legacy migration — check
it), but the other four fields are `Json`: `migrateLegacyCache` fills them
with unchecked `as`-casts plus `||` fallbacks, so at runtime they can hold
values outside the TypeScript annotations (e.g. a numeric `toolName`). -/
structure ApprovalCacheEntry where
  toolName : Json
  toolInput : Json
  decision : CacheDecision
  reason : Json
  timestamp : Json

/-- The in-memory cache: working directory → cache key → entry, each level a
JS object in enumeration order. -/
abbrev ApprovalCache := List (String × List (String × ApprovalCacheEntry))

/-- A cache entry's JSON value, fields in the construction order shared by
`setCachedDecision`, `migrateLegacyCache` and the zod schema shape. -/
def entryToJson (e : ApprovalCacheEntry) : Json :=
  .obj [("toolName", e.toolName), ("toolInput", e.toolInput),
        ("decision", .str e.decision.toStr), ("reason", e.reason),
        ("timestamp", e.timestamp)]

/-- The cache's JSON document, as `saveCache` serialises it. -/
def cacheToJson (c : ApprovalCache) : Json :=
  .obj (c.map (fun d => (d.1, Json.obj (d.2.map (fun p => (p.1, entryToJson p.2))))))

/-- `ApprovalCacheEntrySchema.parse`: requires the five fields with their
schema types (`decision` in `allow`/`deny`), strips anything else, rejects
non-objects. -/
def parseApprovalCacheEntry (j : Json) : Option ApprovalCacheEntry :=
  match j with
  | .obj fs =>
      match jsGetField fs "toolName", jsGetField fs "toolInput",
            jsGetField fs "decision", jsGetField fs "reason",
            jsGetField fs "timestamp" with
      | some (.str tn), some (.obj ti), some (.str d), some (.str r),
        some (.str ts) =>
          if d = "allow" then
            some ⟨.str tn, .obj ti, .allow, .str r, .str ts⟩
          else if d = "deny" then
            some ⟨.str tn, .obj ti, .deny, .str r, .str ts⟩
          else none
      | _, _, _, _, _ => none
  | _ => none

/-- Validate every value of a record's entry list against the entry schema. -/
def parseEntryList : List (String × Json) → Option (List (String × ApprovalCacheEntry))
  | [] => some []
  | (k, v) :: rest =>
      match parseApprovalCacheEntry v, parseEntryList rest with
      | some e, some es => some ((k, e) :: es)
      | _, _ => none

/-- `z.record(z.string(), ApprovalCacheEntrySchema)`: a plain object whose
values all validate (arrays and null are rejected). -/
def parseDirRecord (j : Json) : Option (List (String × ApprovalCacheEntry)) :=
  match j with
  | .obj fs => parseEntryList (jsFields fs)
  | _ => none

/-- Validate every working-directory value of the top-level record. -/
def parseDirList : List (String × Json) → Option ApprovalCache
  | [] => some []
  | (k, v) :: rest =>
      match parseDirRecord v, parseDirList rest with
      | some es, some c => some ((k, es) :: c)
      | _, _ => none

/-- `parseApprovalCache` (src/types/hook-schemas.ts): the nested-record
schema of the current cache format. -/
def parseApprovalCache (j : Json) : Option ApprovalCache :=
  match j with
  | .obj fs => parseDirList (jsFields fs)
  | _ => none

/-! ### Legacy migration (src/utils/cache.ts:25) -/

/-- The `(x as T) || fallback` coercion migration applies to each copied
field: `undefined` or any falsy value becomes the fallback. -/
def jsOrElse (v : Option Json) (fallback : Json) : Json :=
  match v with
  | some x => if jsTruthy x then x else fallback
  | none => fallback

/-- Migration of one legacy entry (src/utils/cache.ts:36-58): only non-null
objects with a decision that maps to `allow`/`deny` survive; `approve`
becomes `allow` and `block` becomes `deny`; the remaining fields are copied
with falsy-fallbacks and are NOT re-validated. -/
def migrateEntry (now : String) (j : Json) : Option ApprovalCacheEntry :=
  match j with
  | .obj _ | .arr _ =>
      let build := fun (d : CacheDecision) =>
        some { toolName := jsOrElse (jsProp j "toolName") (.str ""),
               toolInput := jsOrElse (jsProp j "toolInput") (.obj []),
               decision := d,
               reason := jsOrElse (jsProp j "reason") (.str ""),
               timestamp := jsOrElse (jsProp j "timestamp") (.str now) }
      match jsProp j "decision" with
      | some (.str s) =>
          let s' := if s = "approve" then "allow"
                    else if s = "block" then "deny"
                    else s
          if s' = "allow" then build .allow
          else if s' = "deny" then build .deny
          else none
      | _ => none
  | _ => none

/-- Migrate every entry of one working directory, dropping the failures. -/
def migrateEntryList (now : String) : List (String × Json) →
    List (String × ApprovalCacheEntry)
  | [] => []
  | (k, v) :: rest =>
      match migrateEntry now v with
      | some e => (k, e) :: migrateEntryList now rest
      | none => migrateEntryList now rest

/-- Migrate the working-directory level: non-null object values are
migrated entry-wise and kept only when at least one entry survived
(src/utils/cache.ts:29-66). -/
def migrateDirList (now : String) : List (String × Json) → ApprovalCache
  | [] => []
  | (dir, entries) :: rest =>
      match entries with
      | .obj _ | .arr _ =>
          let m := migrateEntryList now (jsEntries entries)
          if m.isEmpty then migrateDirList now rest
          else (dir, m) :: migrateDirList now rest
      | _ => migrateDirList now rest

/-- `migrateLegacyCache` (src/utils/cache.ts:25): rebuild the cache from an
arbitrary parsed JSON document. -/
def migrateLegacyCache (now : String) (j : Json) : ApprovalCache :=
  if jsTruthy j && jsTypeofObject j then migrateDirList now (jsEntries j)
  else []

/-! ### The persisted cache file (src/utils/cache.ts:72) -/

/-- The backing cache file, at the granularity of its parse image: absent,
text that `JSON.parse` throws on, or text parsing to a JS value. -/
inductive FileContent where
  | absent : FileContent
  | unparseable : FileContent
  | parsed (j : Json) : FileContent

/-- `saveCache` (src/utils/cache.ts:109): whole-file rewrite with
`JSON.stringify(cache, null, 2)`, whose parse image is the cache's JSON
value (the indent only affects whitespace). -/
def saveCache (cache : ApprovalCache) : FileContent :=
  .parsed (cacheToJson cache)

/-- `loadCache` (src/utils/cache.ts:72): absent file → empty; unparseable
file → empty without raising; schema failure → legacy migration, persisted
immediately when (and only when) it produced at least one entry.  Returns
the in-memory cache together with the file as the call leaves it. -/
def loadCache (now : String) : FileContent → ApprovalCache × FileContent
  | .absent => ([], .absent)
  | .unparseable => ([], .unparseable)
  | .parsed j =>
      match parseApprovalCache j with
      | some c => (c, .parsed j)
      | none =>
          let migrated := migrateLegacyCache now j
          if migrated.isEmpty then (migrated, .parsed j)
          else (migrated, saveCache migrated)

/-- `getCachedDecision` (src/utils/cache.ts:115): load, hash, and return the
entry under the exact `(workingDir, cacheKey)` pair. -/
def getCachedDecision (toolName : String) (toolInput : ToolInput)
    (workingDir : String) (now : String) (file : FileContent) :
    Option ApprovalCacheEntry × FileContent :=
  let (cache, file') := loadCache now file
  let cacheKey := generateCacheKey toolName toolInput
  ((assocFind cache workingDir).bind (fun es => assocFind es cacheKey), file')

/-- `setCachedDecision` (src/utils/cache.ts:126): load, insert the entry
under `(workingDir, cacheKey)` (creating the directory level on demand),
and rewrite the whole file. -/
def setCachedDecision (toolName : String) (toolInput : ToolInput)
    (workingDir : String) (decision : CacheDecision) (reason : String)
    (now : String) (file : FileContent) : FileContent :=
  let (cache, _) := loadCache now file
  let cacheKey := generateCacheKey toolName toolInput
  let entry : ApprovalCacheEntry :=
    { toolName := .str toolName, toolInput := .obj toolInput,
      decision := decision, reason := .str reason, timestamp := .str now }
  let dirEntries := (assocFind cache workingDir).getD []
  saveCache (assocSet cache workingDir (assocSet dirEntries cacheKey entry))

/-- `clearCache` (src/utils/cache.ts:151): overwrite an existing file with
the empty object; a missing file is left missing. -/
def clearCache : FileContent → FileContent
  | .absent => .absent
  | _ => .parsed (.obj [])

/-! ### Decisions and the hook envelope (src/types/hook-schemas.ts) -/

/-- The three-valued permission decision
(`z.enum(['allow', 'deny', 'ask'])`). -/
inductive Decision where
  | allow : Decision
  | deny : Decision
  | ask : Decision
deriving DecidableEq

/-- A cached (two-valued) decision read back as a permission decision. -/
def CacheDecision.toDecision : CacheDecision → Decision
  | .allow => .allow
  | .deny => .deny

/-- `ToolDecisionSchema`: the structured-output contract
`(decision: allow|deny|ask, reason: string)` the reasoning client's response
is parsed into. -/
structure ToolDecision where
  decision : Decision
  reason : String
deriving DecidableEq

/-- The output envelope's `hookSpecificOutput` (its `hookEventName` is the
constant `'PreToolUse'` on every constructed output and is omitted). -/
structure HookOutput where
  permissionDecision : Decision
  permissionDecisionReason : String
deriving DecidableEq

/-- The parsed input envelope (`HookInputSchema`). -/
structure HookData where
  session_id : String
  transcript_path : String
  tool_name : String
  tool_input : ToolInput

/-- The configuration fields the pipeline reads (`loadConfig` defaults both
to `true`). -/
structure Config where
  log : Bool
  cache : Bool

/-! ### Fast path (src/commands/auto-approve-tools.ts:82) -/

/-- Tools that are unambiguously safe and should be auto-approved without AI
query (src/commands/auto-approve-tools.ts:83). -/
def FAST_APPROVE_TOOLS : List String :=
  ["Read", "LS", "Glob", "Grep", "WebFetch", "WebSearch", "NotebookRead",
   "TodoWrite", "Task"]

/-- Tools that are safe for writing/editing in development contexts
(src/commands/auto-approve-tools.ts:96). -/
def SAFE_WRITE_TOOLS : List String :=
  ["Write", "Edit", "MultiEdit", "NotebookEdit"]

/-- `shouldFastApprove` (src/commands/auto-approve-tools.ts:103): the
ExitPlanMode ask-rule, then the read-only allow-set, then the safe-write
allow-set; the tool input parameter is declared but never read. -/
def shouldFastApprove (toolName : String) (_toolInput : ToolInput) :
    Option HookOutput :=
  if toolName = "ExitPlanMode" then
    some { permissionDecision := .ask,
           permissionDecisionReason :=
             "ExitPlanMode requires user confirmation before proceeding" }
  else if FAST_APPROVE_TOOLS.contains toolName then
    some { permissionDecision := .allow,
           permissionDecisionReason := toolName ++ " is a safe read-only operation" }
  else if SAFE_WRITE_TOOLS.contains toolName then
    some { permissionDecision := .allow,
           permissionDecisionReason := toolName ++ " is a safe development operation" }
  else none

/-! ### The orchestrator (src/commands/auto-approve-tools.ts:144) -/

mutual

/-- `String(x)` as JS template interpolation applies it (the cached reason
reaches the template `cachedDecision.reason + " (cached)"` untyped, since
migration does not re-validate it). -/
def jsTemplateStr : Json → String
  | .null => "null"
  | .bool true => "true"
  | .bool false => "false"
  | .num n => toString n
  | .str s => s
  | .arr xs => jsTemplateList xs
  | .obj _ => "[object Object]"

/-- `Array.prototype.toString` = `join(',')`, with null elements blank. -/
def jsTemplateList : List Json → String
  | [] => ""
  | [x] => jsTemplateElem x
  | x :: y :: rest => jsTemplateElem x ++ "," ++ jsTemplateList (y :: rest)

/-- One array element under `join`: `null` renders empty. -/
def jsTemplateElem : Json → String
  | .null => ""
  | j => jsTemplateStr j

end

/-- The message of the error thrown when no authentication method is
configured (src/commands/auto-approve-tools.ts:213). -/
def noAuthMessage : String :=
  "No authentication method configured. Available options:\n" ++
  "1. beyondthehype.dev: Set beyondthehypeApiKey in config (recommended)\n" ++
  "2. OpenAI-compatible: Set openaiApiKey/OPENAI_API_KEY or apiKey/ANTHROPIC_API_KEY in config or environment\n" ++
  "\nRun `ccb install` to configure authentication interactively."

/-- The observable outcome of one `autoApproveTools` invocation: the process
exit code, the output envelope written to stdout (if any), the diagnostic
written to stderr (if any), the cache file as the run leaves it, and how
many reasoning-client calls and cache lookups the run performed. -/
structure RunResult where
  exitCode : Nat
  stdout : Option HookOutput
  stderr : Option String
  fileAfter : FileContent
  llmCalls : Nat
  cacheReads : Nat

/-- The reasoning stage plus write-through (src/commands/auto-approve-tools.ts:210-253),
shared by the cache-miss and cache-disabled paths.  `useCache` is the
write-through guard `config.cache && !noCache`; a thrown error (no auth, or
any `queryLLM` failure) falls to the catch block
(src/commands/auto-approve-tools.ts:279-286): one diagnostic line on
stderr, exit code 1, and no envelope on stdout. -/
def llmStage (hookData : HookData) (workingDir : String) (useCache : Bool)
    (llmConfigured : Bool) (llmResult : Except String ToolDecision)
    (now : String) (reads : Nat) (file : FileContent) : RunResult :=
  if !llmConfigured then
    { exitCode := 1, stdout := none,
      stderr := some ("Error processing hook input: Error: " ++ noAuthMessage ++ "\n"),
      fileAfter := file, llmCalls := 0, cacheReads := reads }
  else
    match llmResult with
    | .error e =>
        { exitCode := 1, stdout := none,
          stderr := some ("Error processing hook input: " ++ e ++ "\n"),
          fileAfter := file, llmCalls := 1, cacheReads := reads }
    | .ok claudeResponse =>
        let fileAfter :=
          if useCache && claudeResponse.decision ≠ Decision.ask then
            match claudeResponse.decision with
            | .allow => setCachedDecision hookData.tool_name hookData.tool_input
                          workingDir .allow claudeResponse.reason now file
            | .deny => setCachedDecision hookData.tool_name hookData.tool_input
                          workingDir .deny claudeResponse.reason now file
            | .ask => file
          else file
        { exitCode := 0,
          stdout := some { permissionDecision := claudeResponse.decision,
                           permissionDecisionReason := claudeResponse.reason },
          stderr := none, fileAfter := fileAfter, llmCalls := 1,
          cacheReads := reads }

/-- `autoApproveTools` (src/commands/auto-approve-tools.ts:144), from the
point where the input envelope has parsed: fast path, then (when caching is
on and not flag-disabled) the cache lookup, then the reasoning client with
conditional write-through.  `llmResult` is the oracle for one `queryLLM`
call: `.ok` a parsed structured response, `.error` the stringified thrown
error of any failure (transport, empty content, schema-parse).  The audit
log write (src/commands/auto-approve-tools.ts:256-265) only appends to the
separate log file and is not part of the modelled state. -/
def autoApproveTools (hookData : HookData) (workingDir : String)
    (config : Config) (noCache : Bool) (llmConfigured : Bool)
    (llmResult : Except String ToolDecision) (now : String)
    (file : FileContent) : RunResult :=
  match shouldFastApprove hookData.tool_name hookData.tool_input with
  | some fastApproval =>
      { exitCode := 0, stdout := some fastApproval, stderr := none,
        fileAfter := file, llmCalls := 0, cacheReads := 0 }
  | none =>
      if config.cache && !noCache then
        let (cachedDecision, file1) :=
          getCachedDecision hookData.tool_name hookData.tool_input workingDir now file
        match cachedDecision with
        | some entry =>
            { exitCode := 0,
              stdout := some { permissionDecision := entry.decision.toDecision,
                               permissionDecisionReason :=
                                 jsTemplateStr entry.reason ++ " (cached)" },
              stderr := none, fileAfter := file1, llmCalls := 0, cacheReads := 1 }
        | none =>
            llmStage hookData workingDir true llmConfigured llmResult now 1 file1
      else
        llmStage hookData workingDir false llmConfigured llmResult now 0 file

/-! ### C10 — the fast path ignores the tool input -/

/-- C10: `shouldFastApprove` depends only on the tool name — for every tool
name the classification is the same whatever the tool input, and in
particular every Write/Edit/MultiEdit/NotebookEdit request is auto-allowed
regardless of the file path or content its input carries. -/
theorem c10_fastpath_depends_only_on_tool_name :
    (∀ (toolName : String) (i1 i2 : ToolInput),
       shouldFastApprove toolName i1 = shouldFastApprove toolName i2) ∧
    (∀ i : ToolInput,
       shouldFastApprove "Write" i =
         some { permissionDecision := .allow,
                permissionDecisionReason := "Write is a safe development operation" } ∧
       shouldFastApprove "Edit" i =
         some { permissionDecision := .allow,
                permissionDecisionReason := "Edit is a safe development operation" } ∧
       shouldFastApprove "MultiEdit" i =
         some { permissionDecision := .allow,
                permissionDecisionReason := "MultiEdit is a safe development operation" } ∧
       shouldFastApprove "NotebookEdit" i =
         some { permissionDecision := .allow,
                permissionDecisionReason := "NotebookEdit is a safe development operation" }) :=
  ⟨fun _ _ _ => rfl, fun _ => ⟨rfl, rfl, rfl, rfl⟩⟩

/-! ### C4 — ExitPlanMode always asks, before any cache consultation -/

/-- C4: for every request whose tool name is ExitPlanMode the pipeline
returns `ask` with the fixed fast-path reason, touching neither the cache
(zero cache reads, file untouched) nor the reasoning client — whatever the
cache file contains. -/
theorem c4_exitplanmode_fast_ask (hookData : HookData) (workingDir : String)
    (config : Config) (noCache llmConfigured : Bool)
    (llmResult : Except String ToolDecision) (now : String) (file : FileContent)
    (h : hookData.tool_name = "ExitPlanMode") :
    autoApproveTools hookData workingDir config noCache llmConfigured llmResult now file =
      { exitCode := 0,
        stdout := some { permissionDecision := .ask,
                         permissionDecisionReason :=
                           "ExitPlanMode requires user confirmation before proceeding" },
        stderr := none, fileAfter := file, llmCalls := 0, cacheReads := 0 } := by
  simp [autoApproveTools, shouldFastApprove, h]

/-- A cache file that stores an `allow` verdict for the exact ExitPlanMode
request used in the C4 witness. -/
def exitPlanCachedFile : FileContent :=
  saveCache [("/proj",
    [(generateCacheKey "ExitPlanMode" [],
      { toolName := .str "ExitPlanMode", toolInput := .obj [],
        decision := .allow, reason := .str "previously allowed",
        timestamp := .str "2024-01-01T00:00:00.000Z" })])]

/-- C4 witness: even with an `allow` entry cached for the identical
(toolName, toolInput, workingDirectory), ExitPlanMode yields `ask`. -/
theorem c4_exitplanmode_fast_ask_witness :
    autoApproveTools ⟨"s1", "/t", "ExitPlanMode", []⟩ "/proj" ⟨true, true⟩
      false true (.ok ⟨.allow, "r"⟩) "2024-01-02T00:00:00.000Z" exitPlanCachedFile =
      { exitCode := 0,
        stdout := some { permissionDecision := .ask,
                         permissionDecisionReason :=
                           "ExitPlanMode requires user confirmation before proceeding" },
        stderr := none, fileAfter := exitPlanCachedFile, llmCalls := 0,
        cacheReads := 0 } :=
  c4_exitplanmode_fast_ask _ _ _ _ _ _ _ _ rfl

/-! ### C5 — allow-listed tools resolve with no cache read and no LLM call -/

/-- C5: every request whose tool name is in the read-only allow-set or the
safe-write allow-set resolves to `allow` with zero reasoning-client calls
and zero cache reads (the file is not even opened). -/
theorem c5_allowlisted_fast_allow (hookData : HookData) (workingDir : String)
    (config : Config) (noCache llmConfigured : Bool)
    (llmResult : Except String ToolDecision) (now : String) (file : FileContent)
    (h : hookData.tool_name ∈ FAST_APPROVE_TOOLS ∨ hookData.tool_name ∈ SAFE_WRITE_TOOLS) :
    ∃ reason : String,
      autoApproveTools hookData workingDir config noCache llmConfigured llmResult now file =
        { exitCode := 0,
          stdout := some { permissionDecision := .allow,
                           permissionDecisionReason := reason },
          stderr := none, fileAfter := file, llmCalls := 0, cacheReads := 0 } := by
  have hfast : ∃ reason, shouldFastApprove hookData.tool_name hookData.tool_input =
      some { permissionDecision := .allow, permissionDecisionReason := reason } := by
    rcases h with h | h
    · simp only [FAST_APPROVE_TOOLS, List.mem_cons, List.not_mem_nil, or_false] at h
      rcases h with h | h | h | h | h | h | h | h | h <;> rw [h] <;> exact ⟨_, rfl⟩
    · simp only [SAFE_WRITE_TOOLS, List.mem_cons, List.not_mem_nil, or_false] at h
      rcases h with h | h | h | h <;> rw [h] <;> exact ⟨_, rfl⟩
  obtain ⟨reason, hr⟩ := hfast
  exact ⟨reason, by simp [autoApproveTools, hr]⟩

/-- C5 witness: a Read request resolves to `allow` without any reasoning
client configured and with an unreadable cache file. -/
theorem c5_allowlisted_fast_allow_witness :
    ∃ reason : String,
      autoApproveTools ⟨"s1", "/t", "Read", [("file_path", .str "/etc/hosts")]⟩
        "/proj" ⟨true, true⟩ false false (.error "no llm") "T" .unparseable =
        { exitCode := 0,
          stdout := some { permissionDecision := .allow,
                           permissionDecisionReason := reason },
          stderr := none, fileAfter := .unparseable, llmCalls := 0,
          cacheReads := 0 } :=
  c5_allowlisted_fast_allow _ _ _ _ _ _ _ _
    (Or.inl (by simp [FAST_APPROVE_TOOLS]))

/-! ### C6 — a reasoning-client failure is fatal, with no fallback verdict -/

/-- C6: when the request reaches the reasoning step (no fast-path match, no
usable cache hit) and that step fails — transport error, empty response
content, or a response that does not parse into the decision schema, all
surfacing as `.error` — the invocation exits with code 1, writes one
non-empty diagnostic line to stderr, and writes no envelope to stdout. -/
theorem c6_reasoning_failure_exits_nonzero (hookData : HookData)
    (workingDir : String) (config : Config) (noCache : Bool) (e : String)
    (now : String) (file : FileContent)
    (hfast : shouldFastApprove hookData.tool_name hookData.tool_input = none)
    (hmiss : config.cache = false ∨ noCache = true ∨
      (getCachedDecision hookData.tool_name hookData.tool_input workingDir now file).1 = none) :
    (autoApproveTools hookData workingDir config noCache true (.error e) now file).exitCode = 1 ∧
    (autoApproveTools hookData workingDir config noCache true (.error e) now file).stdout = none ∧
    (autoApproveTools hookData workingDir config noCache true (.error e) now file).stderr =
      some ("Error processing hook input: " ++ e ++ "\n") ∧
    ∀ s, (autoApproveTools hookData workingDir config noCache true (.error e) now file).stderr =
      some s → s.length ≠ 0 := by
  have step : (autoApproveTools hookData workingDir config noCache true (.error e) now file).exitCode = 1 ∧
      (autoApproveTools hookData workingDir config noCache true (.error e) now file).stdout = none ∧
      (autoApproveTools hookData workingDir config noCache true (.error e) now file).stderr =
        some ("Error processing hook input: " ++ e ++ "\n") := by
    rcases hmiss with hc | hn | hm
    · simp [autoApproveTools, hfast, hc, llmStage]
    · simp [autoApproveTools, hfast, hn, llmStage]
    · cases hcc : (config.cache && !noCache)
      · simp [autoApproveTools, hfast, hcc, llmStage]
      · rcases hp : getCachedDecision hookData.tool_name hookData.tool_input workingDir now file
          with ⟨cd, f1⟩
        have hcd : cd = none := by rw [hp] at hm; exact hm
        subst hcd
        simp [autoApproveTools, hfast, hcc, hp, llmStage]
  refine ⟨step.1, step.2.1, step.2.2, fun s hs => ?_⟩
  rw [step.2.2] at hs
  have hes : "Error processing hook input: " ++ e ++ "\n" = s := Option.some.inj hs
  subst hes
  have hlen : ("Error processing hook input: " ++ e ++ "\n").length =
      "Error processing hook input: ".length + e.length + "\n".length := by
    rw [String.length_append, String.length_append]
  have h1 : "\n".length = 1 := rfl
  omega

/-- C6 witness: a concrete Bash request with a failing reasoning call exits
1 with the diagnostic line and no stdout envelope. -/
theorem c6_reasoning_failure_exits_nonzero_witness :
    (autoApproveTools ⟨"s1", "/t", "Bash", [("command", .str "ls")]⟩ "/proj"
      ⟨true, true⟩ false true (.error "Error: Failed to query API: boom") "T"
      .absent).exitCode = 1 ∧
    (autoApproveTools ⟨"s1", "/t", "Bash", [("command", .str "ls")]⟩ "/proj"
      ⟨true, true⟩ false true (.error "Error: Failed to query API: boom") "T"
      .absent).stdout = none ∧
    (autoApproveTools ⟨"s1", "/t", "Bash", [("command", .str "ls")]⟩ "/proj"
      ⟨true, true⟩ false true (.error "Error: Failed to query API: boom") "T"
      .absent).stderr =
      some ("Error processing hook input: Error: Failed to query API: boom\n") ∧
    ∀ s, (autoApproveTools ⟨"s1", "/t", "Bash", [("command", .str "ls")]⟩ "/proj"
      ⟨true, true⟩ false true (.error "Error: Failed to query API: boom") "T"
      .absent).stderr = some s → s.length ≠ 0 :=
  c6_reasoning_failure_exits_nonzero _ _ _ _ _ _ _ rfl (Or.inr (Or.inr rfl))

/-! ### C8 — a corrupt cache file reads as empty and never fails the run -/

/-- C8: an unparseable cache file makes `loadCache` return the empty cache
without raising and without touching the file, and the whole pipeline then
behaves (in exit code, stdout and stderr) exactly as it does with no cache
file at all. -/
theorem c8_corrupt_cache_treated_as_empty (now : String) :
    loadCache now .unparseable = ([], .unparseable) ∧
    ∀ (hookData : HookData) (workingDir : String) (config : Config)
      (noCache llmConfigured : Bool) (llmResult : Except String ToolDecision),
      (autoApproveTools hookData workingDir config noCache llmConfigured llmResult now .unparseable).exitCode =
        (autoApproveTools hookData workingDir config noCache llmConfigured llmResult now .absent).exitCode ∧
      (autoApproveTools hookData workingDir config noCache llmConfigured llmResult now .unparseable).stdout =
        (autoApproveTools hookData workingDir config noCache llmConfigured llmResult now .absent).stdout ∧
      (autoApproveTools hookData workingDir config noCache llmConfigured llmResult now .unparseable).stderr =
        (autoApproveTools hookData workingDir config noCache llmConfigured llmResult now .absent).stderr := by
  refine ⟨rfl, fun hookData workingDir config noCache llmConfigured llmResult => ?_⟩
  cases hfa : shouldFastApprove hookData.tool_name hookData.tool_input
  · cases hcc : (config.cache && !noCache)
    · cases llmConfigured <;> rcases llmResult with e | td <;>
        simp [autoApproveTools, hfa, hcc, llmStage]
    · cases llmConfigured <;> rcases llmResult with e | td <;>
        simp [autoApproveTools, hfa, hcc, llmStage, getCachedDecision,
          loadCache, assocFind]
  · simp [autoApproveTools, hfa]

/-! ### C2 — the cache key is NOT computed over a canonical serialization -/

/-- The input with keys `a`, `b` inserted in that order. -/
def c2InputAB : ToolInput := [("a", .num 1), ("b", .num 2)]

/-- The structurally identical input with the keys inserted in the other
order. -/
def c2InputBA : ToolInput := [("b", .num 2), ("a", .num 1)]

/-- C2 counterexample: two structurally identical tool inputs — the same
key/value pairs, merely inserted in a different order (they are permutations
of one another) — produce different cache keys, because `generateCacheKey`
hashes `JSON.stringify({toolName, toolInput})`, which serialises object keys
in insertion order rather than canonically. -/
theorem c2_insertion_order_changes_key :
    c2InputAB.Perm c2InputBA ∧
    generateCacheKey "Bash" c2InputAB ≠ generateCacheKey "Bash" c2InputBA := by
  constructor
  · exact List.Perm.swap _ _ _
  · decide

/-- C2 amended: the cache key is a deterministic function of the insertion-
ordered `JSON.stringify` serialization of the tool input — two requests with
the same tool name whose inputs serialise identically (in particular, equal
key order and equal values) get the same 256-bit key; canonicalisation is
not performed, so equal-as-maps inputs may get different keys. -/
theorem c2_amended_key_from_serialization (t : String) (i1 i2 : ToolInput)
    (h : strJson (.obj i1) = strJson (.obj i2)) :
    generateCacheKey t i1 = generateCacheKey t i2 := by
  simp only [generateCacheKey, strJson, strJsonFields]
  simp only [strJson] at h
  rw [h]

/-- C2 amended witness: identical serializations give identical keys. -/
theorem c2_amended_key_from_serialization_witness :
    generateCacheKey "Bash" [("command", .str "ls")] =
      generateCacheKey "Bash" [("command", .str "ls")] :=
  c2_amended_key_from_serialization "Bash" _ _ rfl

/-! ### C9 — migration does not re-validate and does not always persist -/

/-- A fixed load time for the C9 scenario. -/
def c9Now : String := "2024-01-01T00:00:00.000Z"

/-- A parseable cache file that fails the current schema: its one entry has
a legacy `approve` decision and a numeric `toolName`. -/
def c9LegacyDoc : Json :=
  .obj [("/proj", .obj [("k1",
    .obj [("decision", .str "approve"), ("toolName", .num 42)])])]

/-- What migration makes of that entry: the label is mapped to `allow` and
the missing fields are defaulted, but the numeric `toolName` is copied
through unchecked. -/
def c9MigratedEntry : ApprovalCacheEntry :=
  { toolName := .num 42, toolInput := .obj [], decision := .allow,
    reason := .str "", timestamp := .str c9Now }

/-- C9 counterexample: the legacy file fails current-schema validation, and
migration keeps — and `loadCache` persists — an entry that still fails
validation (its `toolName` is the number 42), refuting that entries failing
validation after migration are discarded. -/
theorem c9_migration_keeps_invalid_entry :
    parseApprovalCache c9LegacyDoc = none ∧
    migrateLegacyCache c9Now c9LegacyDoc = [("/proj", [("k1", c9MigratedEntry)])] ∧
    parseApprovalCacheEntry (entryToJson c9MigratedEntry) = none ∧
    loadCache c9Now (.parsed c9LegacyDoc) =
      ([("/proj", [("k1", c9MigratedEntry)])],
       saveCache [("/proj", [("k1", c9MigratedEntry)])]) :=
  ⟨rfl, rfl, rfl, rfl⟩

/-- C9 amended: on a parseable file that fails schema validation,
`loadCache` returns the migrated cache and persists it immediately iff it
is non-empty (an all-discarded migration leaves the file unchanged);
migration maps the legacy decision labels `approve` to `allow` and `block`
to `deny`, keeps entries only when the mapped decision is `allow`/`deny`,
and copies the remaining fields with falsy-fallbacks without re-validating
them. -/
theorem c9_amended_migration_behavior (now : String) (j : Json)
    (h : parseApprovalCache j = none) :
    loadCache now (.parsed j) =
      (migrateLegacyCache now j,
       if (migrateLegacyCache now j).isEmpty then .parsed j
       else saveCache (migrateLegacyCache now j)) ∧
    (∀ (jv : Json) (entry : ApprovalCacheEntry), migrateEntry now jv = some entry →
      (entry.decision = .allow ∧
        (jsProp jv "decision" = some (.str "approve") ∨
         jsProp jv "decision" = some (.str "allow"))) ∨
      (entry.decision = .deny ∧
        (jsProp jv "decision" = some (.str "block") ∨
         jsProp jv "decision" = some (.str "deny")))) := by
  constructor
  · by_cases hc : (migrateLegacyCache now j).isEmpty <;>
      simp [loadCache, h, hc]
  · intro jv entry hm
    cases jv with
    | obj fs =>
        simp only [migrateEntry] at hm
        cases hd : jsProp (.obj fs) "decision" with
        | none => rw [hd] at hm; simp at hm
        | some dv =>
            rw [hd] at hm
            cases dv with
            | str s =>
                by_cases h1 : s = "approve"
                · subst h1; simp at hm; subst hm
                  exact Or.inl ⟨rfl, Or.inl rfl⟩
                · by_cases h2 : s = "block"
                  · subst h2; simp at hm; subst hm
                    exact Or.inr ⟨rfl, Or.inl rfl⟩
                  · by_cases h3 : s = "allow"
                    · subst h3; simp at hm; subst hm
                      exact Or.inl ⟨rfl, Or.inr rfl⟩
                    · by_cases h4 : s = "deny"
                      · subst h4; simp at hm; subst hm
                        exact Or.inr ⟨rfl, Or.inr rfl⟩
                      · simp [h1, h2, h3, h4] at hm
            | null => simp at hm
            | bool b => simp at hm
            | num n => simp at hm
            | arr xs => simp at hm
            | obj gs => simp at hm
    | arr xs => simp [migrateEntry, jsProp] at hm
    | null => simp [migrateEntry] at hm
    | bool b => simp [migrateEntry] at hm
    | num n => simp [migrateEntry] at hm
    | str s => simp [migrateEntry] at hm

/-- C9 amended witness: the concrete legacy document from the
counterexample instantiates the amended load/persist behaviour. -/
theorem c9_amended_migration_behavior_witness :
    loadCache c9Now (.parsed c9LegacyDoc) =
      (migrateLegacyCache c9Now c9LegacyDoc,
       if (migrateLegacyCache c9Now c9LegacyDoc).isEmpty then .parsed c9LegacyDoc
       else saveCache (migrateLegacyCache c9Now c9LegacyDoc)) ∧
    (∀ (jv : Json) (entry : ApprovalCacheEntry), migrateEntry c9Now jv = some entry →
      (entry.decision = .allow ∧
        (jsProp jv "decision" = some (.str "approve") ∨
         jsProp jv "decision" = some (.str "allow"))) ∨
      (entry.decision = .deny ∧
        (jsProp jv "decision" = some (.str "block") ∨
         jsProp jv "decision" = some (.str "deny")))) :=
  c9_amended_migration_behavior c9Now c9LegacyDoc rfl

/-! ### C1 — no `ask` is ever present in the persisted cache -/

/-- One cache-touching operation of the system: a bare load (which may
perform a migration rewrite), a direct write of an `allow`/`deny` decision,
a clear, or a whole pipeline invocation (covering the orchestrator's
write-through of a reasoning-client decision). -/
inductive CacheOp where
  | load (now : String) : CacheOp
  | store (toolName : String) (toolInput : ToolInput) (workingDir : String)
      (decision : CacheDecision) (reason : String) (now : String) : CacheOp
  | clear : CacheOp
  | run (hookData : HookData) (workingDir : String) (config : Config)
      (noCache : Bool) (llmConfigured : Bool)
      (llmResult : Except String ToolDecision) (now : String) : CacheOp

/-- The cache file after one operation. -/
def applyCacheOp (file : FileContent) : CacheOp → FileContent
  | .load now => (loadCache now file).2
  | .store t i dir d r now => setCachedDecision t i dir d r now file
  | .clear => clearCache file
  | .run hd dir cfg nc lc lr now =>
      (autoApproveTools hd dir cfg nc lc lr now file).fileAfter

/-- The cache file after a whole operation sequence, starting from no file. -/
def runCacheOps (ops : List CacheOp) : FileContent :=
  ops.foldl applyCacheOp .absent

/-- The C1 invariant, read off the raw persisted JSON: every entry object
reachable under two levels of keys carries decision `allow` or `deny`. -/
def noAskInFile : FileContent → Prop
  | .parsed j => ∀ dir entries, jsProp j dir = some entries →
      ∀ k ej, jsProp entries k = some ej →
        jsProp ej "decision" = some (.str "allow") ∨
        jsProp ej "decision" = some (.str "deny")
  | _ => True

/-- A successful association lookup returns a list member. -/
theorem assocFind_mem {α : Type} {xs : List (String × α)} {k : String} {v : α}
    (h : assocFind xs k = some v) : (k, v) ∈ xs := by
  induction xs with
  | nil => simp [assocFind] at h
  | cons p rest ih =>
      obtain ⟨k', v'⟩ := p
      simp only [assocFind] at h
      split at h
      · next hk =>
          obtain rfl := Option.some.inj h
          obtain rfl : k' = k := eq_of_beq hk
          exact List.mem_cons_self _ _
      · exact List.mem_cons_of_mem _ (ih h)

/-- A successful JS property read returns a field of the object. -/
theorem jsGetField_mem {fs : List (String × Json)} {k : String} {v : Json}
    (h : jsGetField fs k = some v) : (k, v) ∈ fs :=
  List.mem_reverse.mp (assocFind_mem h)

/-- The serialised entry's decision field is its (two-valued) decision. -/
theorem jsProp_entryToJson_decision (e : ApprovalCacheEntry) :
    jsProp (entryToJson e) "decision" = some (.str e.decision.toStr) := rfl

/-- Any file `saveCache` writes satisfies the C1 invariant: the in-memory
entries are typed with two-valued decisions, and serialisation puts exactly
those under the `decision` key. -/
theorem noAskInFile_saveCache (c : ApprovalCache) : noAskInFile (saveCache c) := by
  simp only [saveCache, noAskInFile, cacheToJson]
  intro dir entries hdir k ej hk
  simp only [jsProp] at hdir
  obtain ⟨px, _, heq⟩ := List.mem_map.mp (jsGetField_mem hdir)
  have h2 : Json.obj (px.2.map (fun p => (p.1, entryToJson p.2))) = entries :=
    congrArg Prod.snd heq
  subst h2
  simp only [jsProp] at hk
  obtain ⟨qx, _, heq2⟩ := List.mem_map.mp (jsGetField_mem hk)
  have h3 : entryToJson qx.2 = ej := congrArg Prod.snd heq2
  subst h3
  rw [jsProp_entryToJson_decision]
  cases qx.2.decision
  · exact Or.inl rfl
  · exact Or.inr rfl

/-- The files the system can leave behind: nothing, or a `saveCache` image. -/
def isSavedCacheFile (f : FileContent) : Prop :=
  f = .absent ∨ ∃ c : ApprovalCache, f = saveCache c

/-- `loadCache` leaves the file alone or rewrites it with a migrated cache. -/
theorem loadCache_file_cases (now : String) (f : FileContent) :
    (loadCache now f).2 = f ∨ ∃ c, (loadCache now f).2 = saveCache c := by
  cases f with
  | absent => exact Or.inl rfl
  | unparseable => exact Or.inl rfl
  | parsed j =>
      cases hp : parseApprovalCache j with
      | some c => left; simp [loadCache, hp]
      | none =>
          by_cases hm : (migrateLegacyCache now j).isEmpty
          · left; simp [loadCache, hp, hm]
          · right
            exact ⟨migrateLegacyCache now j, by simp [loadCache, hp, hm]⟩

/-- `setCachedDecision` always rewrites the file with a cache image. -/
theorem setCachedDecision_is_save (t : String) (i : ToolInput) (dir : String)
    (d : CacheDecision) (r now : String) (f : FileContent) :
    ∃ c, setCachedDecision t i dir d r now f = saveCache c :=
  ⟨_, rfl⟩

/-- A pipeline run leaves the file alone, leaves it as the lookup's load
left it, or rewrites it with a cache image. -/
theorem autoApproveTools_fileAfter_cases (hookData : HookData)
    (workingDir : String) (config : Config) (noCache llmConfigured : Bool)
    (llmResult : Except String ToolDecision) (now : String) (file : FileContent) :
    (autoApproveTools hookData workingDir config noCache llmConfigured llmResult now file).fileAfter = file ∨
    (autoApproveTools hookData workingDir config noCache llmConfigured llmResult now file).fileAfter =
      (loadCache now file).2 ∨
    ∃ c, (autoApproveTools hookData workingDir config noCache llmConfigured llmResult now file).fileAfter =
      saveCache c := by
  cases hfa : shouldFastApprove hookData.tool_name hookData.tool_input with
  | some out => left; simp [autoApproveTools, hfa]
  | none =>
      cases hcc : (config.cache && !noCache) with
      | false =>
          cases llmConfigured with
          | false => left; simp [autoApproveTools, hfa, hcc, llmStage]
          | true =>
              rcases llmResult with e | td
              · left; simp [autoApproveTools, hfa, hcc, llmStage]
              · left
                simp only [autoApproveTools, hfa, hcc, llmStage, Bool.false_and,
                  Bool.not_true, Bool.not_false, if_true, if_false]
                simp [llmStage]
      | true =>
          rcases hp : getCachedDecision hookData.tool_name hookData.tool_input workingDir now file
            with ⟨cd, f1⟩
          have hf1 : f1 = (loadCache now file).2 := by
            have : (getCachedDecision hookData.tool_name hookData.tool_input workingDir now file).2 =
                (loadCache now file).2 := rfl
            rw [hp] at this
            exact this
          cases cd with
          | some entry =>
              right; left
              simp [autoApproveTools, hfa, hcc, hp, ← hf1]
          | none =>
              cases llmConfigured with
              | false =>
                  right; left
                  simp [autoApproveTools, hfa, hcc, hp, llmStage, ← hf1]
              | true =>
                  rcases llmResult with e | td
                  · right; left
                    simp [autoApproveTools, hfa, hcc, hp, llmStage, ← hf1]
                  · rcases td with ⟨dec, reason⟩
                    cases dec with
                    | allow =>
                        right; right
                        have hstep : (autoApproveTools hookData workingDir config noCache true
                            (.ok ⟨.allow, reason⟩) now file).fileAfter =
                            setCachedDecision hookData.tool_name hookData.tool_input
                              workingDir .allow reason now f1 := by
                          simp [autoApproveTools, hfa, hcc, hp, llmStage]
                        rw [hstep]
                        exact setCachedDecision_is_save _ _ _ _ _ _ _
                    | deny =>
                        right; right
                        have hstep : (autoApproveTools hookData workingDir config noCache true
                            (.ok ⟨.deny, reason⟩) now file).fileAfter =
                            setCachedDecision hookData.tool_name hookData.tool_input
                              workingDir .deny reason now f1 := by
                          simp [autoApproveTools, hfa, hcc, hp, llmStage]
                        rw [hstep]
                        exact setCachedDecision_is_save _ _ _ _ _ _ _
                    | ask =>
                        right; left
                        simp [autoApproveTools, hfa, hcc, hp, llmStage, ← hf1]

/-- Every operation maps a system-written file to a system-written file. -/
theorem applyCacheOp_preserves (f : FileContent) (op : CacheOp)
    (h : isSavedCacheFile f) : isSavedCacheFile (applyCacheOp f op) := by
  cases op with
  | load now =>
      rcases loadCache_file_cases now f with h2 | ⟨c, h2⟩
      · rw [applyCacheOp, h2]; exact h
      · exact Or.inr ⟨c, h2⟩
  | store t i dir d r now => exact Or.inr ⟨_, rfl⟩
  | clear =>
      cases f with
      | absent => exact Or.inl rfl
      | unparseable => exact Or.inr ⟨[], rfl⟩
      | parsed j => exact Or.inr ⟨[], rfl⟩
  | run hd dir cfg nc lc lr now =>
      rcases autoApproveTools_fileAfter_cases hd dir cfg nc lc lr now f with h2 | h2 | ⟨c, h2⟩
      · rw [applyCacheOp, h2]; exact h
      · rw [applyCacheOp, h2]
        rcases loadCache_file_cases now f with h3 | ⟨c, h3⟩
        · rw [h3]; exact h
        · exact Or.inr ⟨c, h3⟩
      · exact Or.inr ⟨c, h2⟩

/-- A system-written file satisfies the invariant. -/
theorem isSavedCacheFile_noAsk {f : FileContent} (h : isSavedCacheFile f) :
    noAskInFile f := by
  rcases h with rfl | ⟨c, rfl⟩
  · trivial
  · exact noAskInFile_saveCache c

/-- C1: after every sequence of cache operations — loads (including ones
that perform legacy migration), direct `allow`/`deny` writes, clears, and
whole pipeline invocations with their write-through — the persisted cache
file holds no entry whose decision is `ask`: every stored entry's decision
is `allow` or `deny`. -/
theorem c1_no_ask_ever_persisted (ops : List CacheOp) :
    noAskInFile (runCacheOps ops) := by
  have inv : ∀ (l : List CacheOp) (f : FileContent), isSavedCacheFile f →
      isSavedCacheFile (l.foldl applyCacheOp f) := by
    intro l
    induction l with
    | nil => exact fun f h => h
    | cons op rest ih => exact fun f h => ih _ (applyCacheOp_preserves f op h)
  exact isSavedCacheFile_noAsk (inv ops .absent (Or.inl rfl))

/-! ### Association-list lemmas for the in-memory cache -/

/-- Setting a key makes it found with the new value. -/
theorem assocFind_assocSet_same {α : Type} (xs : List (String × α)) (k : String) (v : α) :
    assocFind (assocSet xs k v) k = some v := by
  induction xs with
  | nil => simp [assocSet, assocFind]
  | cons p rest ih =>
      obtain ⟨k0, v0⟩ := p
      by_cases hk : k0 = k
      · subst hk
        simp [assocSet, assocFind]
      · have hb : (k0 == k) = false := beq_eq_false_iff_ne.mpr hk
        cases ha : rest.any (fun p => p.1 == k) <;>
          simp only [assocSet, List.any_cons, hb, Bool.false_or, ha,
            if_true, if_false, List.map_cons, List.cons_append] <;>
          simp only [assocSet, ha, if_true, if_false] at ih <;>
          simpa [assocFind, hb] using ih

/-- Unfolding lemma for `assocFind` at a cons cell. -/
theorem assocFind_cons {α : Type} (k0 : String) (v0 : α)
    (rest : List (String × α)) (k : String) :
    assocFind ((k0, v0) :: rest) k =
      if (k0 == k) = true then some v0 else assocFind rest k := rfl

/-- Replacing the value at one key does not change what another key finds. -/
theorem assocFind_mapRepl_ne {α : Type} (xs : List (String × α)) (k k' : String)
    (v : α) (h : k' ≠ k) :
    assocFind (xs.map (fun p => if p.1 == k then (k, v) else p)) k' =
      assocFind xs k' := by
  induction xs with
  | nil => rfl
  | cons p rest ih =>
      obtain ⟨k0, v0⟩ := p
      rw [List.map_cons]
      show assocFind ((if (k0 == k) = true then (k, v) else (k0, v0)) ::
          rest.map (fun p => if p.1 == k then (k, v) else p)) k' =
        assocFind ((k0, v0) :: rest) k'
      by_cases hb : (k0 == k) = true
      · rw [if_pos hb, assocFind_cons, assocFind_cons]
        obtain rfl : k0 = k := eq_of_beq hb
        have hb' : (k0 == k') = false := beq_eq_false_iff_ne.mpr (Ne.symm h)
        rw [if_neg (by simp [hb']), if_neg (by simp [hb']), ih]
      · rw [if_neg hb, assocFind_cons, assocFind_cons]
        by_cases hk' : (k0 == k') = true
        · rw [if_pos hk', if_pos hk']
        · rw [if_neg hk', if_neg hk', ih]

/-- Appending a binding for one key does not change what another key finds. -/
theorem assocFind_append_single_ne {α : Type} (xs : List (String × α))
    (k k' : String) (v : α) (h : k' ≠ k) :
    assocFind (xs ++ [(k, v)]) k' = assocFind xs k' := by
  induction xs with
  | nil =>
      have hb : (k == k') = false := beq_eq_false_iff_ne.mpr (Ne.symm h)
      simp [assocFind, hb]
  | cons p rest ih =>
      obtain ⟨k0, v0⟩ := p
      cases hk : (k0 == k') <;> simp [assocFind, hk, ih]

/-- Setting one key does not change what another key finds. -/
theorem assocFind_assocSet_ne {α : Type} (xs : List (String × α)) (k k' : String)
    (v : α) (h : k' ≠ k) : assocFind (assocSet xs k v) k' = assocFind xs k' := by
  unfold assocSet
  split
  · exact assocFind_mapRepl_ne xs k k' v h
  · exact assocFind_append_single_ne xs k k' v h

/-- The keys after `assocSet`: unchanged when the key was present, the old
keys plus the new key otherwise. -/
theorem assocSet_map_fst {α : Type} (xs : List (String × α)) (k : String) (v : α) :
    (assocSet xs k v).map Prod.fst =
      if xs.any (fun p => p.1 == k) then xs.map Prod.fst
      else xs.map Prod.fst ++ [k] := by
  unfold assocSet
  split
  · next hany =>
      rw [List.map_map]
      refine List.map_congr_left ?_
      intro p _
      by_cases hb : (p.1 == k) = true
      · simp only [Function.comp_apply, hb, if_true]
        exact (eq_of_beq hb).symm
      · have hp : ¬ p.1 = k := fun he => hb (by simp [he])
        simp [Function.comp_apply, hp]
  · next hany =>
      rw [List.map_append]
      rfl

/-- `assocSet` preserves key distinctness. -/
theorem assocSet_nodup {α : Type} (xs : List (String × α)) (k : String) (v : α)
    (h : (xs.map Prod.fst).Nodup) : ((assocSet xs k v).map Prod.fst).Nodup := by
  rw [assocSet_map_fst]
  split
  · exact h
  · next hany =>
      have hnotin : k ∉ xs.map Prod.fst := by
        intro hmem
        obtain ⟨p, hp, hpk⟩ := List.mem_map.mp hmem
        exact hany (List.any_eq_true.mpr ⟨p, hp, by simp [hpk]⟩)
      rw [List.nodup_append]
      refine ⟨h, List.nodup_singleton k, ?_⟩
      intro a ha hak
      rw [List.mem_singleton] at hak
      exact hnotin (hak ▸ ha)

/-- Every binding after `assocSet` is the new binding or one of the old ones. -/
theorem assocSet_mem {α : Type} {xs : List (String × α)} {k : String} {v : α}
    {q : String × α} (h : q ∈ assocSet xs k v) : q = (k, v) ∨ q ∈ xs := by
  unfold assocSet at h
  split at h
  · obtain ⟨p, hp, heq⟩ := List.mem_map.mp h
    by_cases hb : (p.1 == k) = true
    · rw [if_pos hb] at heq
      exact Or.inl heq.symm
    · rw [if_neg hb] at heq
      exact Or.inr (heq ▸ hp)
  · rcases List.mem_append.mp h with h2 | h2
    · exact Or.inr h2
    · exact Or.inl (List.mem_singleton.mp h2)

/-- `assocSet` never produces the empty list. -/
theorem assocSet_ne_nil {α : Type} (xs : List (String × α)) (k : String) (v : α) :
    assocSet xs k v ≠ [] := by
  unfold assocSet
  split
  · next hany =>
      cases xs with
      | nil => simp at hany
      | cons p rest => simp
  · simp

/-- Finding under a value-mapped association list. -/
theorem assocFind_map_val {α β : Type} (xs : List (String × α)) (g : α → β)
    (k : String) :
    assocFind (xs.map (fun p => (p.1, g p.2))) k = (assocFind xs k).map g := by
  induction xs with
  | nil => rfl
  | cons p rest ih =>
      obtain ⟨k0, v0⟩ := p
      cases hk : (k0 == k) <;> simp [assocFind, hk, ih]

/-! ### `jsFields` on duplicate-free field lists -/

/-- Keys surviving normalisation are original keys. -/
theorem jsFieldsF_keys_sub (fuel : Nat) (fs : List (String × Json)) (k' : String)
    (h : k' ∈ (jsFieldsF fuel fs).map Prod.fst) : k' ∈ fs.map Prod.fst := by
  induction fuel generalizing fs with
  | zero => simp [jsFieldsF] at h
  | succ n ih =>
      cases fs with
      | nil => simp [jsFieldsF] at h
      | cons p rest =>
          obtain ⟨k, v⟩ := p
          simp only [jsFieldsF, List.map_cons] at h
          rcases List.mem_cons.mp h with rfl | h2
          · exact List.mem_cons_self _ _
          · have h3 := ih _ h2
            obtain ⟨q, hq, hqk⟩ := List.mem_map.mp h3
            rw [List.map_cons]
            exact List.mem_cons_of_mem _
              (hqk ▸ List.mem_map_of_mem Prod.fst (List.mem_of_mem_filter hq))

/-- Normalised field lists have distinct keys. -/
theorem jsFieldsF_keys_nodup (fuel : Nat) (fs : List (String × Json)) :
    ((jsFieldsF fuel fs).map Prod.fst).Nodup := by
  induction fuel generalizing fs with
  | zero => simp [jsFieldsF]
  | succ n ih =>
      cases fs with
      | nil => simp [jsFieldsF]
      | cons p rest =>
          obtain ⟨k, v⟩ := p
          simp only [jsFieldsF, List.map_cons]
          refine List.nodup_cons.mpr ⟨?_, ih _⟩
          intro hmem
          have h2 := jsFieldsF_keys_sub n _ k hmem
          obtain ⟨q, hq, hqk⟩ := List.mem_map.mp h2
          have h3 := List.of_mem_filter hq
          simp [hqk] at h3

/-- Normalisation is the identity on duplicate-free field lists. -/
theorem jsFieldsF_nodup_id (fuel : Nat) (fs : List (String × Json))
    (hf : fs.length ≤ fuel) (h : (fs.map Prod.fst).Nodup) :
    jsFieldsF fuel fs = fs := by
  induction fuel generalizing fs with
  | zero =>
      cases fs with
      | nil => rfl
      | cons p r => simp at hf
  | succ n ih =>
      cases fs with
      | nil => rfl
      | cons p rest =>
          obtain ⟨k, v⟩ := p
          rw [List.map_cons, List.nodup_cons] at h
          have hk : ∀ q ∈ rest, (q.1 == k) = false := by
            intro q hq
            refine beq_eq_false_iff_ne.mpr (fun he => h.1 ?_)
            rw [← he]
            exact List.mem_map.mpr ⟨q, hq, rfl⟩
          have hfil1 : rest.filter (fun p => p.1 == k) = [] := by
            rw [List.filter_eq_nil_iff]
            intro q hq
            simp [hk q hq]
          have hfil2 : rest.filter (fun p => p.1 != k) = rest := by
            rw [List.filter_eq_self]
            intro q hq
            simp [bne, hk q hq]
          rw [jsFieldsF, hfil1, hfil2, List.foldl_nil]
          rw [ih rest (by simpa using Nat.le_of_succ_le_succ hf) h.2]

/-- `jsFields` is the identity on duplicate-free field lists. -/
theorem jsFields_nodup_id (fs : List (String × Json))
    (h : (fs.map Prod.fst).Nodup) : jsFields fs = fs :=
  jsFieldsF_nodup_id fs.length fs le_rfl h

/-- Mapping only the values leaves the keys unchanged. -/
theorem map_fst_map_val {α β : Type} (xs : List (String × α)) (g : String × α → β) :
    (xs.map (fun p => (p.1, g p))).map Prod.fst = xs.map Prod.fst := by
  rw [List.map_map]
  rfl

/-! ### Truthiness coercion helpers -/

/-- A string survives the `(x as string) || ''` coercion unchanged. -/
theorem jsOrElse_str (s : String) :
    jsOrElse (some (.str s)) (.str "") = .str s := by
  by_cases h : s = "" <;> simp [jsOrElse, jsTruthy, h]

/-- A string with itself as fallback is a fixed point of the coercion. -/
theorem jsOrElse_str_self (s : String) :
    jsOrElse (some (.str s)) (.str s) = .str s := by
  by_cases h : s = "" <;> simp [jsOrElse, jsTruthy, h]

/-- Objects are truthy, so `(x as Record) || {}` keeps any object. -/
theorem jsOrElse_obj (fs : List (String × Json)) (d : Json) :
    jsOrElse (some (.obj fs)) d = .obj fs := by
  simp [jsOrElse, jsTruthy]

/-! ### Shape predicates on runtime caches -/

/-- The fields a schema-validated entry has: exactly the TypeScript types. -/
def wfEntry (e : ApprovalCacheEntry) : Prop :=
  (∃ s, e.toolName = Json.str s) ∧ (∃ fs, e.toolInput = Json.obj fs) ∧
  (∃ s, e.reason = Json.str s) ∧ (∃ s, e.timestamp = Json.str s)

/-- An entry the migration coercions leave unchanged (with load time `now`). -/
def stableEntry (now : String) (e : ApprovalCacheEntry) : Prop :=
  jsOrElse (some e.toolName) (.str "") = e.toolName ∧
  jsOrElse (some e.toolInput) (.obj []) = e.toolInput ∧
  jsOrElse (some e.reason) (.str "") = e.reason ∧
  jsOrElse (some e.timestamp) (.str now) = e.timestamp

/-- Distinct keys at both levels of the in-memory cache. -/
def nodupCache (c : ApprovalCache) : Prop :=
  (c.map Prod.fst).Nodup ∧ ∀ p ∈ c, (p.2.map Prod.fst).Nodup

/-- A cache as schema validation produces it. -/
def wfCache (c : ApprovalCache) : Prop :=
  nodupCache c ∧ ∀ p ∈ c, ∀ q ∈ p.2, wfEntry q.2

/-- A cache as migration produces it: duplicate-free, no empty directory
level, every entry coercion-stable. -/
def stableCache (now : String) (c : ApprovalCache) : Prop :=
  nodupCache c ∧ (∀ p ∈ c, p.2 ≠ []) ∧ ∀ p ∈ c, ∀ q ∈ p.2, stableEntry now q.2

/-! ### Entry-level round trips -/

/-- A schema-shaped entry re-validates to itself. -/
theorem parseEntry_entryToJson_of_wf (e : ApprovalCacheEntry) (hwf : wfEntry e) :
    parseApprovalCacheEntry (entryToJson e) = some e := by
  obtain ⟨⟨tn, htn⟩, ⟨ti, hti⟩, ⟨r, hr⟩, ⟨ts, hts⟩⟩ := hwf
  rcases e with ⟨tnv, tiv, dv, rv, tsv⟩
  simp only at htn hti hr hts
  subst htn hti hr hts
  cases dv <;> rfl

/-- If a serialised entry re-validates, it was schema-shaped and unchanged. -/
theorem parseEntry_entryToJson_inv (e e' : ApprovalCacheEntry)
    (h : parseApprovalCacheEntry (entryToJson e) = some e') :
    e' = e ∧ wfEntry e := by
  rcases e with ⟨tnv, tiv, dv, rv, tsv⟩
  cases tnv with
  | str tn =>
      cases tiv with
      | obj ti =>
          cases rv with
          | str r =>
              cases tsv with
              | str ts =>
                  cases dv with
                  | allow =>
                      exact ⟨(Option.some.inj h).symm,
                        ⟨tn, rfl⟩, ⟨ti, rfl⟩, ⟨r, rfl⟩, ⟨ts, rfl⟩⟩
                  | deny =>
                      exact ⟨(Option.some.inj h).symm,
                        ⟨tn, rfl⟩, ⟨ti, rfl⟩, ⟨r, rfl⟩, ⟨ts, rfl⟩⟩
              | null => exact Option.noConfusion h
              | bool b => exact Option.noConfusion h
              | num n => exact Option.noConfusion h
              | arr xs => exact Option.noConfusion h
              | obj gs => exact Option.noConfusion h
          | null => exact Option.noConfusion h
          | bool b => exact Option.noConfusion h
          | num n => exact Option.noConfusion h
          | arr xs => exact Option.noConfusion h
          | obj gs => exact Option.noConfusion h
      | null => exact Option.noConfusion h
      | bool b => exact Option.noConfusion h
      | num n => exact Option.noConfusion h
      | str s => exact Option.noConfusion h
      | arr xs => exact Option.noConfusion h
  | null => exact Option.noConfusion h
  | bool b => exact Option.noConfusion h
  | num n => exact Option.noConfusion h
  | arr xs => exact Option.noConfusion h
  | obj gs => exact Option.noConfusion h

/-! ### Injectivity of `Nat.repr` (array index keys are pairwise distinct) -/

/-- Decimal digits of `n`, most significant first, fuel-based. -/
def digitsM : Nat → Nat → List Nat
  | 0, _ => []
  | f + 1, n => if n < 10 then [n] else digitsM f (n / 10) ++ [n % 10]

/-- `Nat.toDigitsCore` computes the decimal digits (with enough fuel). -/
theorem toDigitsCore_eq_digitsM (f : Nat) : ∀ (n : Nat) (acc : List Char), n < f →
    Nat.toDigitsCore 10 f n acc = (digitsM f n).map Nat.digitChar ++ acc := by
  induction f with
  | zero => intro n acc h; omega
  | succ f ih =>
      intro n acc h
      rw [Nat.toDigitsCore]
      by_cases h10 : n / 10 = 0
      · have hn10 : n < 10 := by
          rcases Nat.div_eq_zero_iff (by omega) |>.mp h10 with h' | h' <;> omega
        rw [if_pos h10, digitsM, if_pos hn10]
        simp [Nat.mod_eq_of_lt hn10]
      · have hge : 10 ≤ n := by
          by_contra hlt
          exact h10 (Nat.div_eq_of_lt (by omega))
        have hlt : n / 10 < f := by
          have h1 : n / 10 < n := Nat.div_lt_self (by omega) (by omega)
          omega
        rw [if_neg h10, ih _ _ hlt, digitsM, if_neg (by omega)]
        simp [List.map_append]

/-- Value of a most-significant-first digit list. -/
def ofDigitsM (ds : List Nat) : Nat := ds.foldl (fun a d => a * 10 + d) 0

/-- The digit list evaluates back to the number. -/
theorem ofDigitsM_digitsM (f : Nat) : ∀ n : Nat, n < f →
    ofDigitsM (digitsM f n) = n := by
  induction f with
  | zero => intro n h; omega
  | succ f ih =>
      intro n h
      rw [digitsM]
      by_cases hn10 : n < 10
      · rw [if_pos hn10]
        simp [ofDigitsM]
      · have hlt : n / 10 < f := by
          have h1 : n / 10 < n := Nat.div_lt_self (by omega) (by omega)
          omega
        rw [if_neg hn10]
        unfold ofDigitsM
        rw [List.foldl_append]
        have hv := ih (n / 10) hlt
        unfold ofDigitsM at hv
        rw [hv]
        simp only [List.foldl_cons, List.foldl_nil]
        omega

/-- Every produced digit is below ten. -/
theorem digitsM_lt (f : Nat) : ∀ n : Nat, ∀ d ∈ digitsM f n, d < 10 := by
  induction f with
  | zero => intro n d hd; simp [digitsM] at hd
  | succ f ih =>
      intro n d hd
      rw [digitsM] at hd
      by_cases hn10 : n < 10
      · rw [if_pos hn10] at hd
        simpa using List.mem_singleton.mp hd ▸ hn10
      · rw [if_neg hn10] at hd
        rcases List.mem_append.mp hd with h1 | h1
        · exact ih _ _ h1
        · have := List.mem_singleton.mp h1
          subst this
          exact Nat.mod_lt _ (by omega)

/-- `Nat.digitChar` is injective below ten. -/
theorem digitChar_inj_lt : ∀ d1 < 10, ∀ d2 < 10,
    Nat.digitChar d1 = Nat.digitChar d2 → d1 = d2 := by decide

/-- Mapping `digitChar` over digit lists is injective. -/
theorem map_digitChar_inj : ∀ (l1 l2 : List Nat), (∀ d ∈ l1, d < 10) →
    (∀ d ∈ l2, d < 10) → l1.map Nat.digitChar = l2.map Nat.digitChar → l1 = l2 := by
  intro l1
  induction l1 with
  | nil => intro l2 _ _ h; simpa using (List.map_eq_nil_iff.mp h.symm).symm
  | cons d rest ih =>
      intro l2 h1 h2 h
      cases l2 with
      | nil => simp at h
      | cons d2 rest2 =>
          simp only [List.map_cons, List.cons.injEq] at h
          have hd := digitChar_inj_lt d (h1 d (List.mem_cons_self _ _)) d2
            (h2 d2 (List.mem_cons_self _ _)) h.1
          subst hd
          rw [ih rest2 (fun x hx => h1 x (List.mem_cons_of_mem _ hx))
            (fun x hx => h2 x (List.mem_cons_of_mem _ hx)) h.2]

/-- Two distinct naturals print differently. -/
theorem natRepr_injective : ∀ n m : Nat, Nat.repr n = Nat.repr m → n = m := by
  intro n m h
  have h2 : Nat.toDigits 10 n = Nat.toDigits 10 m := congrArg String.data h
  rw [Nat.toDigits, Nat.toDigits,
    toDigitsCore_eq_digitsM _ _ _ (Nat.lt_succ_self n),
    toDigitsCore_eq_digitsM _ _ _ (Nat.lt_succ_self m)] at h2
  simp only [List.append_nil] at h2
  have h3 := map_digitChar_inj _ _ (digitsM_lt _ n) (digitsM_lt _ m) h2
  have h4 := congrArg ofDigitsM h3
  rwa [ofDigitsM_digitsM _ _ (Nat.lt_succ_self n),
    ofDigitsM_digitsM _ _ (Nat.lt_succ_self m)] at h4

/-- The keys `Object.entries` produces are pairwise distinct, for every JS
value (normalised object keys, or stringified array indices). -/
theorem jsEntries_keys_nodup (j : Json) : ((jsEntries j).map Prod.fst).Nodup := by
  cases j with
  | obj fs => exact jsFieldsF_keys_nodup _ _
  | arr xs =>
      have hkeys : ((xs.enum.map (fun p => (toString p.1, p.2))).map Prod.fst) =
          (List.range xs.length).map (fun i => toString i) := by
        rw [List.map_map, ← List.enum_map_fst xs, List.map_map]
        rfl
      show ((xs.enum.map (fun p => (toString p.1, p.2))).map Prod.fst).Nodup
      rw [hkeys]
      refine List.Nodup.map ?_ (List.nodup_range _)
      intro a b hab
      exact natRepr_injective a b hab
  | null => simp [jsEntries]
  | bool b => simp [jsEntries]
  | num n => simp [jsEntries]
  | str s => simp [jsEntries]

/-! ### Cache serialisation round trips through schema validation -/

/-- Serialisation at the entries level. -/
def entriesToFields (es : List (String × ApprovalCacheEntry)) : List (String × Json) :=
  es.map (fun p => (p.1, entryToJson p.2))

/-- Serialisation at the directory level. -/
def cacheFields (c : ApprovalCache) : List (String × Json) :=
  c.map (fun d => (d.1, Json.obj (entriesToFields d.2)))

/-- The serialised cache document, in terms of the two levels. -/
theorem cacheToJson_eq (c : ApprovalCache) : cacheToJson c = .obj (cacheFields c) := rfl

/-- A list of schema-shaped entries revalidates to itself. -/
theorem parseEntryList_entriesToFields_of_wf (es : List (String × ApprovalCacheEntry))
    (h : ∀ q ∈ es, wfEntry q.2) :
    parseEntryList (entriesToFields es) = some es := by
  induction es with
  | nil => rfl
  | cons q rest ih =>
      obtain ⟨k, e⟩ := q
      have h1 := parseEntry_entryToJson_of_wf e (h _ (List.mem_cons_self _ _))
      have h2 := ih (fun x hx => h x (List.mem_cons_of_mem _ hx))
      simp only [entriesToFields, List.map_cons] at h2 ⊢
      rw [parseEntryList, h1, h2]

/-- If a serialised entry list revalidates, it was schema-shaped and is
returned unchanged. -/
theorem parseEntryList_entriesToFields_inv (es es' : List (String × ApprovalCacheEntry))
    (h : parseEntryList (entriesToFields es) = some es') :
    es' = es ∧ ∀ q ∈ es, wfEntry q.2 := by
  induction es generalizing es' with
  | nil => exact ⟨(Option.some.inj h).symm, by simp⟩
  | cons q rest ih =>
      obtain ⟨k, e⟩ := q
      simp only [entriesToFields, List.map_cons, parseEntryList] at h
      cases hp : parseApprovalCacheEntry (entryToJson e) with
      | none => rw [hp] at h; exact Option.noConfusion h
      | some e0 =>
          rw [hp] at h
          cases hq : parseEntryList (rest.map fun p => (p.1, entryToJson p.2)) with
          | none => rw [hq] at h; exact Option.noConfusion h
          | some es0 =>
              rw [hq] at h
              have he := Option.some.inj h
              obtain ⟨he0, hwf⟩ := parseEntry_entryToJson_inv e e0 hp
              subst he0
              have hih := ih es0 (by simpa [entriesToFields] using hq)
              refine ⟨?_, ?_⟩
              · rw [← he, hih.1]
              · intro x hx
                rcases List.mem_cons.mp hx with rfl | hx2
                · exact hwf
                · exact hih.2 x hx2

/-- A validated entry is schema-shaped. -/
theorem parseEntry_wf (j : Json) (e : ApprovalCacheEntry)
    (h : parseApprovalCacheEntry j = some e) : wfEntry e := by
  cases j with
  | obj fs =>
      simp only [parseApprovalCacheEntry] at h
      split at h
      · split at h
        · exact (Option.some.inj h) ▸ ⟨⟨_, rfl⟩, ⟨_, rfl⟩, ⟨_, rfl⟩, ⟨_, rfl⟩⟩
        · split at h
          · exact (Option.some.inj h) ▸ ⟨⟨_, rfl⟩, ⟨_, rfl⟩, ⟨_, rfl⟩, ⟨_, rfl⟩⟩
          · exact Option.noConfusion h
      · exact Option.noConfusion h
  | null => exact Option.noConfusion h
  | bool b => exact Option.noConfusion h
  | num n => exact Option.noConfusion h
  | str s => exact Option.noConfusion h
  | arr xs => exact Option.noConfusion h

/-- What a successful entry-list validation guarantees: keys are preserved
and every entry is schema-shaped. -/
theorem parseEntryList_out (fs : List (String × Json))
    (es : List (String × ApprovalCacheEntry)) (h : parseEntryList fs = some es) :
    es.map Prod.fst = fs.map Prod.fst ∧ ∀ q ∈ es, wfEntry q.2 := by
  induction fs generalizing es with
  | nil => exact ((Option.some.inj h).symm ▸ ⟨rfl, by simp⟩)
  | cons p rest ih =>
      obtain ⟨k, v⟩ := p
      simp only [parseEntryList] at h
      cases hp : parseApprovalCacheEntry v with
      | none => rw [hp] at h; exact Option.noConfusion h
      | some e0 =>
          rw [hp] at h
          cases hq : parseEntryList rest with
          | none => rw [hq] at h; exact Option.noConfusion h
          | some es0 =>
              rw [hq] at h
              have he := Option.some.inj h
              have hih := ih es0 hq
              refine ⟨?_, ?_⟩
              · rw [← he, List.map_cons, List.map_cons, hih.1]
              · intro x hx
                rw [← he] at hx
                rcases List.mem_cons.mp hx with rfl | hx2
                · exact parseEntry_wf v e0 hp
                · exact hih.2 x hx2

/-- A serialised cache with duplicate-free inner keys and schema-shaped
entries validates to itself at the directory level. -/
theorem parseDirList_cacheFields (c : ApprovalCache)
    (hin : ∀ p ∈ c, (p.2.map Prod.fst).Nodup)
    (hwf : ∀ p ∈ c, ∀ q ∈ p.2, wfEntry q.2) :
    parseDirList (cacheFields c) = some c := by
  induction c with
  | nil => rfl
  | cons dp rest ih =>
      obtain ⟨dir, es⟩ := dp
      have hrec : parseDirRecord (Json.obj (entriesToFields es)) = some es := by
        show parseEntryList (jsFields (entriesToFields es)) = some es
        rw [show jsFields (entriesToFields es) = entriesToFields es from
          jsFields_nodup_id _ (by
            rw [show (entriesToFields es).map Prod.fst = es.map Prod.fst from
              map_fst_map_val es _]
            exact hin _ (List.mem_cons_self _ _))]
        exact parseEntryList_entriesToFields_of_wf es
          (fun q hq => hwf _ (List.mem_cons_self _ _) q hq)
      have hr := ih (fun p hp => hin p (List.mem_cons_of_mem _ hp))
        (fun p hp => hwf p (List.mem_cons_of_mem _ hp))
      simp only [cacheFields, List.map_cons] at hr ⊢
      rw [parseDirList, hrec, hr]

/-- If a serialised cache validates at the directory level, it is returned
unchanged and all entries were schema-shaped. -/
theorem parseDirList_cacheFields_inv (c c' : ApprovalCache)
    (hin : ∀ p ∈ c, (p.2.map Prod.fst).Nodup)
    (h : parseDirList (cacheFields c) = some c') :
    c' = c ∧ ∀ p ∈ c, ∀ q ∈ p.2, wfEntry q.2 := by
  induction c generalizing c' with
  | nil => exact ⟨(Option.some.inj h).symm, by simp⟩
  | cons dp rest ih =>
      obtain ⟨dir, es⟩ := dp
      simp only [cacheFields, List.map_cons, parseDirList] at h
      cases hp : parseDirRecord (Json.obj (entriesToFields es)) with
      | none => rw [hp] at h; exact Option.noConfusion h
      | some es0 =>
          rw [hp] at h
          cases hq : parseDirList (rest.map fun d => (d.1, Json.obj (entriesToFields d.2))) with
          | none => rw [hq] at h; exact Option.noConfusion h
          | some c0 =>
              rw [hq] at h
              have he := Option.some.inj h
              have hp2 : parseEntryList (entriesToFields es) = some es0 := by
                have : parseDirRecord (Json.obj (entriesToFields es)) =
                    parseEntryList (jsFields (entriesToFields es)) := rfl
                rw [this] at hp
                rwa [show jsFields (entriesToFields es) = entriesToFields es from
                  jsFields_nodup_id _ (by
                    rw [show (entriesToFields es).map Prod.fst = es.map Prod.fst from
                      map_fst_map_val es _]
                    exact hin _ (List.mem_cons_self _ _))] at hp
              obtain ⟨hes, hwfes⟩ := parseEntryList_entriesToFields_inv es es0 hp2
              subst hes
              have hih := ih c0 (fun p hp' => hin p (List.mem_cons_of_mem _ hp'))
                (by simpa [cacheFields] using hq)
              refine ⟨?_, ?_⟩
              · rw [← he, hih.1]
              · intro p hp'
                rcases List.mem_cons.mp hp' with rfl | hp2'
                · exact hwfes
                · exact hih.2 p hp2'

/-- Completeness: a well-formed cache revalidates to itself. -/
theorem parseApprovalCache_cacheToJson_of_wf (c : ApprovalCache) (h : wfCache c) :
    parseApprovalCache (cacheToJson c) = some c := by
  obtain ⟨⟨hnd1, hnd2⟩, hwf⟩ := h
  rw [cacheToJson_eq]
  show parseDirList (jsFields (cacheFields c)) = some c
  rw [show jsFields (cacheFields c) = cacheFields c from
    jsFields_nodup_id _ (by
      rw [show (cacheFields c).map Prod.fst = c.map Prod.fst from map_fst_map_val c _]
      exact hnd1)]
  exact parseDirList_cacheFields c hnd2 hwf

/-- Soundness: whatever a serialised duplicate-free cache revalidates to is
the cache itself, which then is well-formed. -/
theorem parseApprovalCache_cacheToJson_inv (c c' : ApprovalCache) (hn : nodupCache c)
    (h : parseApprovalCache (cacheToJson c) = some c') : c' = c ∧ wfCache c := by
  obtain ⟨hnd1, hnd2⟩ := hn
  rw [cacheToJson_eq] at h
  have h2 : parseDirList (jsFields (cacheFields c)) = some c' := h
  rw [show jsFields (cacheFields c) = cacheFields c from
    jsFields_nodup_id _ (by
      rw [show (cacheFields c).map Prod.fst = c.map Prod.fst from map_fst_map_val c _]
      exact hnd1)] at h2
  obtain ⟨hc, hwf⟩ := parseDirList_cacheFields_inv c c' hnd2 h2
  exact ⟨hc, ⟨hnd1, hnd2⟩, hwf⟩

/-! ### What validation and migration guarantee about their outputs -/

/-- Directory-level validation output: keys preserved, inner keys
duplicate-free, entries schema-shaped. -/
theorem parseDirList_out (fs : List (String × Json)) (c : ApprovalCache)
    (h : parseDirList fs = some c) :
    c.map Prod.fst = fs.map Prod.fst ∧
    ∀ p ∈ c, (p.2.map Prod.fst).Nodup ∧ ∀ q ∈ p.2, wfEntry q.2 := by
  induction fs generalizing c with
  | nil => exact ((Option.some.inj h).symm ▸ ⟨rfl, by simp⟩)
  | cons p rest ih =>
      obtain ⟨k, v⟩ := p
      simp only [parseDirList] at h
      cases hp : parseDirRecord v with
      | none => rw [hp] at h; exact Option.noConfusion h
      | some es0 =>
          rw [hp] at h
          cases hq : parseDirList rest with
          | none => rw [hq] at h; exact Option.noConfusion h
          | some c0 =>
              rw [hq] at h
              have he := Option.some.inj h
              have hih := ih c0 hq
              have hes : (es0.map Prod.fst).Nodup ∧ ∀ q ∈ es0, wfEntry q.2 := by
                cases v with
                | obj gs =>
                    have h3 : parseEntryList (jsFields gs) = some es0 := hp
                    obtain ⟨hk, hw⟩ := parseEntryList_out _ _ h3
                    refine ⟨?_, hw⟩
                    rw [hk]
                    exact jsFieldsF_keys_nodup _ _
                | null => exact Option.noConfusion hp
                | bool b => exact Option.noConfusion hp
                | num n => exact Option.noConfusion hp
                | str s => exact Option.noConfusion hp
                | arr xs => exact Option.noConfusion hp
              refine ⟨by rw [← he, List.map_cons, List.map_cons, hih.1], ?_⟩
              intro p hp'
              rw [← he] at hp'
              rcases List.mem_cons.mp hp' with rfl | h2
              · exact hes
              · exact hih.2 p h2

/-- Every cache schema validation produces is well-formed. -/
theorem parseApprovalCache_wf (j : Json) (c : ApprovalCache)
    (h : parseApprovalCache j = some c) : wfCache c := by
  cases j with
  | obj fs =>
      have h2 : parseDirList (jsFields fs) = some c := h
      obtain ⟨hk, hout⟩ := parseDirList_out _ _ h2
      refine ⟨⟨?_, fun p hp => (hout p hp).1⟩, fun p hp => (hout p hp).2⟩
      rw [hk]
      exact jsFieldsF_keys_nodup _ _
  | null => exact Option.noConfusion h
  | bool b => exact Option.noConfusion h
  | num n => exact Option.noConfusion h
  | str s => exact Option.noConfusion h
  | arr xs => exact Option.noConfusion h

/-- The falsy-fallback coercion is idempotent when the fallback is its own
fixed point. -/
theorem jsOrElse_idem (o : Option Json) (d : Json) (hd : jsOrElse (some d) d = d) :
    jsOrElse (some (jsOrElse o d)) d = jsOrElse o d := by
  cases o with
  | none => simpa [jsOrElse] using hd
  | some x =>
      by_cases ht : jsTruthy x = true
      · simp [jsOrElse, ht]
      · have ht2 : jsTruthy x = false := by simpa using ht
        simp [jsOrElse, ht2, hd]

/-- What migration makes of a serialised typed entry. -/
def migrateEntryImage (now : String) (e : ApprovalCacheEntry) : ApprovalCacheEntry :=
  { toolName := jsOrElse (some e.toolName) (.str ""),
    toolInput := jsOrElse (some e.toolInput) (.obj []),
    decision := e.decision,
    reason := jsOrElse (some e.reason) (.str ""),
    timestamp := jsOrElse (some e.timestamp) (.str now) }

/-- Migration always succeeds on a serialised typed entry (its decision is
two-valued by construction), coercing each copied field. -/
theorem migrateEntry_entryToJson (now : String) (e : ApprovalCacheEntry) :
    migrateEntry now (entryToJson e) = some (migrateEntryImage now e) := by
  rcases e with ⟨tnv, tiv, dv, rv, tsv⟩
  cases dv <;> rfl

/-- On coercion-stable entries, migration is the identity. -/
theorem migrateEntry_entryToJson_of_stable (now : String) (e : ApprovalCacheEntry)
    (h : stableEntry now e) : migrateEntry now (entryToJson e) = some e := by
  obtain ⟨h1, h2, h3, h4⟩ := h
  rw [migrateEntry_entryToJson]
  unfold migrateEntryImage
  rw [h1, h2, h3, h4]

/-- Every entry migration outputs is coercion-stable. -/
theorem migrateEntry_stable (now : String) (j : Json) (e : ApprovalCacheEntry)
    (h : migrateEntry now j = some e) : stableEntry now e := by
  cases j with
  | obj fs =>
      simp only [migrateEntry] at h
      cases hd : jsProp (.obj fs) "decision" with
      | none => rw [hd] at h; exact Option.noConfusion h
      | some dv =>
          rw [hd] at h
          cases dv with
          | str s =>
              by_cases h1 : s = "approve"
              · subst h1; simp at h; subst h
                exact ⟨jsOrElse_idem _ _ (jsOrElse_str_self ""),
                  jsOrElse_idem _ _ (jsOrElse_obj [] _),
                  jsOrElse_idem _ _ (jsOrElse_str_self ""),
                  jsOrElse_idem _ _ (jsOrElse_str_self now)⟩
              · by_cases h2 : s = "block"
                · subst h2; simp at h; subst h
                  exact ⟨jsOrElse_idem _ _ (jsOrElse_str_self ""),
                    jsOrElse_idem _ _ (jsOrElse_obj [] _),
                    jsOrElse_idem _ _ (jsOrElse_str_self ""),
                    jsOrElse_idem _ _ (jsOrElse_str_self now)⟩
                · by_cases h3 : s = "allow"
                  · subst h3; simp at h; subst h
                    exact ⟨jsOrElse_idem _ _ (jsOrElse_str_self ""),
                      jsOrElse_idem _ _ (jsOrElse_obj [] _),
                      jsOrElse_idem _ _ (jsOrElse_str_self ""),
                      jsOrElse_idem _ _ (jsOrElse_str_self now)⟩
                  · by_cases h4 : s = "deny"
                    · subst h4; simp at h; subst h
                      exact ⟨jsOrElse_idem _ _ (jsOrElse_str_self ""),
                        jsOrElse_idem _ _ (jsOrElse_obj [] _),
                        jsOrElse_idem _ _ (jsOrElse_str_self ""),
                        jsOrElse_idem _ _ (jsOrElse_str_self now)⟩
                    · simp [h1, h2, h3, h4] at h
          | null => simp at h
          | bool b => simp at h
          | num n => simp at h
          | arr xs => simp at h
          | obj gs => simp at h
  | arr xs => exact Option.noConfusion h
  | null => exact Option.noConfusion h
  | bool b => exact Option.noConfusion h
  | num n => exact Option.noConfusion h
  | str s => exact Option.noConfusion h

/-- Migrating a serialised typed entry list coerces entry-wise. -/
theorem migrateEntryList_entriesToFields (now : String)
    (es : List (String × ApprovalCacheEntry)) :
    migrateEntryList now (entriesToFields es) =
      es.map (fun p => (p.1, migrateEntryImage now p.2)) := by
  induction es with
  | nil => rfl
  | cons q rest ih =>
      obtain ⟨k, e⟩ := q
      simp only [entriesToFields, List.map_cons, migrateEntryList,
        migrateEntry_entryToJson] at ih ⊢
      rw [ih]

/-- Migrating a serialised stable entry list is the identity. -/
theorem migrateEntryList_entriesToFields_of_stable (now : String)
    (es : List (String × ApprovalCacheEntry))
    (h : ∀ q ∈ es, stableEntry now q.2) :
    migrateEntryList now (entriesToFields es) = es := by
  induction es with
  | nil => rfl
  | cons q rest ih =>
      obtain ⟨k, e⟩ := q
      have h1 := migrateEntry_entryToJson_of_stable now e (h _ (List.mem_cons_self _ _))
      have h2 := ih (fun x hx => h x (List.mem_cons_of_mem _ hx))
      simp only [entriesToFields, List.map_cons, migrateEntryList, h1] at h2 ⊢
      rw [h2]

/-- Migration keeps a subsequence of the entry keys. -/
theorem migrateEntryList_keys_sublist (now : String) (fs : List (String × Json)) :
    List.Sublist ((migrateEntryList now fs).map Prod.fst) (fs.map Prod.fst) := by
  induction fs with
  | nil => simp [migrateEntryList]
  | cons p rest ih =>
      obtain ⟨k, v⟩ := p
      cases hm : migrateEntry now v with
      | some e =>
          simp only [migrateEntryList, hm, List.map_cons]
          exact List.Sublist.cons₂ _ ih
      | none =>
          simp only [migrateEntryList, hm, List.map_cons]
          exact List.Sublist.cons _ ih

/-- Every entry in a migrated entry list is coercion-stable. -/
theorem migrateEntryList_stable_out (now : String) (fs : List (String × Json)) :
    ∀ q ∈ migrateEntryList now fs, stableEntry now q.2 := by
  induction fs with
  | nil => simp [migrateEntryList]
  | cons p rest ih =>
      obtain ⟨k, v⟩ := p
      intro q hq
      cases hm : migrateEntry now v with
      | some e =>
          rw [migrateEntryList, hm] at hq
          rcases List.mem_cons.mp hq with rfl | h2
          · exact migrateEntry_stable now v e hm
          · exact ih q h2
      | none =>
          rw [migrateEntryList, hm] at hq
          exact ih q hq

/-! ### Directory-level migration round trips -/

/-- Migration keeps a subsequence of the directory keys. -/
theorem migrateDirList_keys_sublist (now : String) (fs : List (String × Json)) :
    List.Sublist ((migrateDirList now fs).map Prod.fst) (fs.map Prod.fst) := by
  induction fs with
  | nil => simp [migrateDirList]
  | cons p rest ih =>
      obtain ⟨dir, entries⟩ := p
      cases entries with
      | obj gs =>
          by_cases hm : (migrateEntryList now (jsEntries (.obj gs))).isEmpty
          · simp only [migrateDirList, hm, if_pos, List.map_cons]
            exact List.Sublist.cons _ ih
          · simp only [migrateDirList, hm, Bool.false_eq_true, if_neg,
              not_false_iff, List.map_cons]
            exact List.Sublist.cons₂ _ ih
      | arr xs =>
          by_cases hm : (migrateEntryList now (jsEntries (.arr xs))).isEmpty
          · simp only [migrateDirList, hm, if_pos, List.map_cons]
            exact List.Sublist.cons _ ih
          · simp only [migrateDirList, hm, Bool.false_eq_true, if_neg,
              not_false_iff, List.map_cons]
            exact List.Sublist.cons₂ _ ih
      | null => exact List.Sublist.cons _ ih
      | bool b => exact List.Sublist.cons _ ih
      | num n => exact List.Sublist.cons _ ih
      | str s => exact List.Sublist.cons _ ih

/-- Every directory migration keeps is non-empty, duplicate-free and
entry-wise coercion-stable. -/
theorem migrateDirList_out (now : String) (fs : List (String × Json)) :
    ∀ p ∈ migrateDirList now fs,
      p.2 ≠ [] ∧ (p.2.map Prod.fst).Nodup ∧ ∀ q ∈ p.2, stableEntry now q.2 := by
  induction fs with
  | nil => simp [migrateDirList]
  | cons p rest ih =>
      obtain ⟨dir, entries⟩ := p
      intro q hq
      have hcore : ∀ (j : Json),
          q ∈ (let m := migrateEntryList now (jsEntries j)
               if m.isEmpty then migrateDirList now rest
               else (dir, m) :: migrateDirList now rest) →
          q.2 ≠ [] ∧ (q.2.map Prod.fst).Nodup ∧ ∀ x ∈ q.2, stableEntry now x.2 := by
        intro j hq2
        simp only at hq2
        by_cases hm : (migrateEntryList now (jsEntries j)).isEmpty
        · rw [if_pos hm] at hq2
          exact ih q hq2
        · rw [if_neg hm] at hq2
          rcases List.mem_cons.mp hq2 with rfl | h2
          · refine ⟨fun he => hm (by
              rw [show migrateEntryList now (jsEntries j) = [] from he]
              rfl), ?_, ?_⟩
            · exact List.Nodup.sublist (migrateEntryList_keys_sublist now _)
                (jsEntries_keys_nodup j)
            · exact fun x hx => migrateEntryList_stable_out now _ x hx
          · exact ih q h2
      cases entries with
      | obj gs => exact hcore (.obj gs) hq
      | arr xs => exact hcore (.arr xs) hq
      | null => exact ih q hq
      | bool b => exact ih q hq
      | num n => exact ih q hq
      | str s => exact ih q hq

/-- Migration always outputs a stable cache. -/
theorem migrate_stableCache (now : String) (j : Json) :
    stableCache now (migrateLegacyCache now j) := by
  unfold migrateLegacyCache
  split
  · refine ⟨⟨?_, ?_⟩, ?_, ?_⟩
    · exact List.Nodup.sublist (migrateDirList_keys_sublist now _)
        (jsEntries_keys_nodup j)
    · exact fun p hp => (migrateDirList_out now _ p hp).2.1
    · exact fun p hp => (migrateDirList_out now _ p hp).1
    · exact fun p hp => (migrateDirList_out now _ p hp).2.2
  · exact ⟨⟨by simp, by simp⟩, by simp, by simp⟩

/-- Migrating a serialised stable cache at the directory level is the
identity. -/
theorem migrateDirList_cacheFields (now : String) (c : ApprovalCache)
    (hin : ∀ p ∈ c, (p.2.map Prod.fst).Nodup)
    (hne : ∀ p ∈ c, p.2 ≠ [])
    (hst : ∀ p ∈ c, ∀ q ∈ p.2, stableEntry now q.2) :
    migrateDirList now (cacheFields c) = c := by
  induction c with
  | nil => rfl
  | cons dp rest ih =>
      obtain ⟨dir, es⟩ := dp
      have hjse : jsEntries (Json.obj (entriesToFields es)) = entriesToFields es := by
        show jsFields (entriesToFields es) = entriesToFields es
        refine jsFields_nodup_id _ ?_
        rw [show (entriesToFields es).map Prod.fst = es.map Prod.fst from
          map_fst_map_val es _]
        exact hin _ (List.mem_cons_self _ _)
      have hmig : migrateEntryList now (jsEntries (Json.obj (entriesToFields es))) = es := by
        rw [hjse]
        exact migrateEntryList_entriesToFields_of_stable now es
          (fun q hq => hst _ (List.mem_cons_self _ _) q hq)
      have hnes : es.isEmpty = false := by
        cases es with
        | nil => exact absurd rfl (hne _ (List.mem_cons_self _ _))
        | cons a b => rfl
      have hr := ih (fun p hp => hin p (List.mem_cons_of_mem _ hp))
        (fun p hp => hne p (List.mem_cons_of_mem _ hp))
        (fun p hp => hst p (List.mem_cons_of_mem _ hp))
      simp only [cacheFields, List.map_cons] at hr ⊢
      rw [migrateDirList, hmig, hnes]
      simp only [Bool.false_eq_true, if_neg, not_false_iff]
      rw [hr]

/-- Migrating a serialised stable cache is the identity. -/
theorem migrateLegacyCache_cacheToJson_of_stable (now : String) (c : ApprovalCache)
    (h : stableCache now c) : migrateLegacyCache now (cacheToJson c) = c := by
  obtain ⟨⟨hnd1, hnd2⟩, hne, hst⟩ := h
  rw [cacheToJson_eq]
  show migrateDirList now (jsFields (cacheFields c)) = c
  rw [show jsFields (cacheFields c) = cacheFields c from
    jsFields_nodup_id _ (by
      rw [show (cacheFields c).map Prod.fst = c.map Prod.fst from map_fst_map_val c _]
      exact hnd1)]
  exact migrateDirList_cacheFields now c hnd2 hne hst

/-! ### `loadCache` shape and reload lemmas -/

/-- Every loaded cache is schema-validated (well-formed) or migrated
(coercion-stable w.r.t. the load time). -/
theorem loadCache_shape (now : String) (f : FileContent) :
    wfCache (loadCache now f).1 ∨ stableCache now (loadCache now f).1 := by
  cases f with
  | absent => exact Or.inl ⟨⟨by simp [loadCache], by simp [loadCache]⟩, by simp [loadCache]⟩
  | unparseable => exact Or.inl ⟨⟨by simp [loadCache], by simp [loadCache]⟩, by simp [loadCache]⟩
  | parsed j =>
      cases hp : parseApprovalCache j with
      | some c =>
          left
          have h1 : (loadCache now (.parsed j)).1 = c := by simp [loadCache, hp]
          rw [h1]
          exact parseApprovalCache_wf j c hp
      | none =>
          right
          have h1 : (loadCache now (.parsed j)).1 = migrateLegacyCache now j := by
            by_cases hm : (migrateLegacyCache now j).isEmpty <;>
              simp [loadCache, hp, hm]
          rw [h1]
          exact migrate_stableCache now j

/-- Loaded caches have duplicate-free keys at both levels. -/
theorem loadCache_nodup (now : String) (f : FileContent) :
    nodupCache (loadCache now f).1 := by
  rcases loadCache_shape now f with h | h
  · exact h.1
  · exact h.1

/-- Saving a well-formed or stable cache and loading it back (at the same
load time for the stable case) returns exactly that cache and leaves the
file as saved. -/
theorem loadCache_saveCache (now : String) (c : ApprovalCache)
    (h : wfCache c ∨ stableCache now c) :
    loadCache now (saveCache c) = (c, saveCache c) := by
  rcases h with h | h
  · have hp := parseApprovalCache_cacheToJson_of_wf c h
    simp [loadCache, saveCache, hp]
  · cases hp : parseApprovalCache (cacheToJson c) with
    | some c' =>
        obtain ⟨hc, _⟩ := parseApprovalCache_cacheToJson_inv c c' h.1 hp
        subst hc
        simp [loadCache, saveCache, hp]
    | none =>
        have hm := migrateLegacyCache_cacheToJson_of_stable now c h
        have hcne : c.isEmpty = false := by
          cases c with
          | nil =>
              rw [show parseApprovalCache (cacheToJson ([] : ApprovalCache)) =
                some [] from rfl] at hp
              exact Option.noConfusion hp
          | cons a b => rfl
        have hmne : (migrateLegacyCache now (cacheToJson c)).isEmpty = false := by
          rw [hm]; exact hcne
        simp [loadCache, saveCache, hp, hm, hmne]

/-- Loading the file a load left behind, at the same load time, returns the
same cache and the same file. -/
theorem loadCache_idem (now : String) (f : FileContent) :
    loadCache now (loadCache now f).2 = loadCache now f := by
  cases f with
  | absent => rfl
  | unparseable => rfl
  | parsed j =>
      cases hp : parseApprovalCache j with
      | some c => simp [loadCache, hp]
      | none =>
          by_cases hm : (migrateLegacyCache now j).isEmpty
          · simp [loadCache, hp, hm]
          · have hst := migrate_stableCache now j
            have h2 := loadCache_saveCache now _ (Or.inr hst)
            have h1 : (loadCache now (.parsed j)).2 = saveCache (migrateLegacyCache now j) := by
              simp [loadCache, hp, hm]
            have h3 : loadCache now (.parsed j) =
                (migrateLegacyCache now j, saveCache (migrateLegacyCache now j)) := by
              simp [loadCache, hp, hm]
            rw [h1, h2, h3]

/-! ### The written entry and what `setCachedDecision` preserves -/

/-- The entry `setCachedDecision` writes is schema-shaped. -/
theorem wfEntry_setEntry (t : String) (i : ToolInput) (d : CacheDecision)
    (r now : String) :
    wfEntry ⟨.str t, .obj i, d, .str r, .str now⟩ :=
  ⟨⟨t, rfl⟩, ⟨i, rfl⟩, ⟨r, rfl⟩, ⟨now, rfl⟩⟩

/-- The entry `setCachedDecision` writes is coercion-stable at its own
timestamp. -/
theorem stableEntry_setEntry (t : String) (i : ToolInput) (d : CacheDecision)
    (r now : String) :
    stableEntry now ⟨.str t, .obj i, d, .str r, .str now⟩ :=
  ⟨jsOrElse_str t, jsOrElse_obj i _, jsOrElse_str r, jsOrElse_str_self now⟩

/-- Inserting a schema-shaped entry preserves well-formedness. -/
theorem wfCache_set (c : ApprovalCache) (dir key : String)
    (e1 : ApprovalCacheEntry) (hwf : wfCache c) (he : wfEntry e1) :
    wfCache (assocSet c dir (assocSet ((assocFind c dir).getD []) key e1)) := by
  obtain ⟨⟨hn1, hn2⟩, hw⟩ := hwf
  have hes0nodup : (((assocFind c dir).getD []).map Prod.fst).Nodup := by
    cases hf : assocFind c dir with
    | none => simp
    | some es => exact hn2 _ (assocFind_mem hf)
  have hes0wf : ∀ q ∈ (assocFind c dir).getD [], wfEntry q.2 := by
    cases hf : assocFind c dir with
    | none => simp
    | some es =>
        simp only [Option.getD_some]
        exact hw _ (assocFind_mem hf)
  refine ⟨⟨assocSet_nodup _ _ _ hn1, ?_⟩, ?_⟩
  · intro p hp
    rcases assocSet_mem hp with rfl | hp2
    · exact assocSet_nodup _ _ _ hes0nodup
    · exact hn2 p hp2
  · intro p hp q hq
    rcases assocSet_mem hp with rfl | hp2
    · rcases assocSet_mem hq with rfl | hq2
      · exact he
      · exact hes0wf q hq2
    · exact hw p hp2 q hq

/-- Inserting a coercion-stable entry preserves stability. -/
theorem stableCache_set (now : String) (c : ApprovalCache) (dir key : String)
    (e1 : ApprovalCacheEntry) (hs : stableCache now c) (he : stableEntry now e1) :
    stableCache now (assocSet c dir (assocSet ((assocFind c dir).getD []) key e1)) := by
  obtain ⟨⟨hn1, hn2⟩, hne, hst⟩ := hs
  have hes0nodup : (((assocFind c dir).getD []).map Prod.fst).Nodup := by
    cases hf : assocFind c dir with
    | none => simp
    | some es => exact hn2 _ (assocFind_mem hf)
  have hes0st : ∀ q ∈ (assocFind c dir).getD [], stableEntry now q.2 := by
    cases hf : assocFind c dir with
    | none => simp
    | some es =>
        simp only [Option.getD_some]
        exact hst _ (assocFind_mem hf)
  refine ⟨⟨assocSet_nodup _ _ _ hn1, ?_⟩, ?_, ?_⟩
  · intro p hp
    rcases assocSet_mem hp with rfl | hp2
    · exact assocSet_nodup _ _ _ hes0nodup
    · exact hn2 p hp2
  · intro p hp
    rcases assocSet_mem hp with rfl | hp2
    · exact assocSet_ne_nil _ _ _
    · exact hne p hp2
  · intro p hp q hq
    rcases assocSet_mem hp with rfl | hp2
    · rcases assocSet_mem hq with rfl | hq2
      · exact he
      · exact hes0st q hq2
    · exact hst p hp2 q hq

/-! ### C3 — cache entries never leak across working directories -/

/-- C3: a decision written under one working directory is invisible under
any other: looking up the same (toolName, toolInput) under `dir2` after
`setCachedDecision` wrote under `dir1 ≠ dir2` returns exactly what it
returned before the write — the exact directory string is the boundary and
nothing is normalised. -/
theorem c3_directory_isolation (t : String) (i : ToolInput) (dir1 dir2 : String)
    (d : CacheDecision) (r now : String) (file : FileContent) (h : dir1 ≠ dir2) :
    (getCachedDecision t i dir2 now (setCachedDecision t i dir1 d r now file)).1 =
    (getCachedDecision t i dir2 now file).1 := by
  have hshape := loadCache_shape now file
  have hgood : wfCache (assocSet (loadCache now file).1 dir1
      (assocSet ((assocFind (loadCache now file).1 dir1).getD [])
        (generateCacheKey t i) ⟨.str t, .obj i, d, .str r, .str now⟩)) ∨
      stableCache now (assocSet (loadCache now file).1 dir1
      (assocSet ((assocFind (loadCache now file).1 dir1).getD [])
        (generateCacheKey t i) ⟨.str t, .obj i, d, .str r, .str now⟩)) := by
    rcases hshape with hw | hs
    · exact Or.inl (wfCache_set _ _ _ _ hw (wfEntry_setEntry t i d r now))
    · exact Or.inr (stableCache_set now _ _ _ _ hs (stableEntry_setEntry t i d r now))
  have hload := loadCache_saveCache now _ hgood
  have h1 : (loadCache now (setCachedDecision t i dir1 d r now file)).1 =
      assocSet (loadCache now file).1 dir1
        (assocSet ((assocFind (loadCache now file).1 dir1).getD [])
          (generateCacheKey t i) ⟨.str t, .obj i, d, .str r, .str now⟩) :=
    congrArg Prod.fst hload
  show ((assocFind (loadCache now (setCachedDecision t i dir1 d r now file)).1 dir2).bind
      (fun es => assocFind es (generateCacheKey t i))) =
    ((assocFind (loadCache now file).1 dir2).bind
      (fun es => assocFind es (generateCacheKey t i)))
  rw [h1, assocFind_assocSet_ne _ _ _ _ (Ne.symm h)]

/-- C3 witness: with a concrete write under `/alpha`, the lookup under
`/beta` is unaffected. -/
theorem c3_directory_isolation_witness :
    (getCachedDecision "Bash" [("command", .str "ls")] "/beta" "T"
      (setCachedDecision "Bash" [("command", .str "ls")] "/alpha" .allow "ok" "T"
        .absent)).1 =
    (getCachedDecision "Bash" [("command", .str "ls")] "/beta" "T" .absent).1 :=
  c3_directory_isolation "Bash" [("command", .str "ls")] "/alpha" "/beta"
    .allow "ok" "T" .absent (by decide)

/-! ### Reloading a saved cache preserves the entry a lookup needs -/

/-- `assocSet` at both levels preserves duplicate-freeness. -/
theorem nodupCache_set (c : ApprovalCache) (dir key : String)
    (e1 : ApprovalCacheEntry) (hn : nodupCache c) :
    nodupCache (assocSet c dir (assocSet ((assocFind c dir).getD []) key e1)) := by
  obtain ⟨hn1, hn2⟩ := hn
  have hes0nodup : (((assocFind c dir).getD []).map Prod.fst).Nodup := by
    cases hf : assocFind c dir with
    | none => simp
    | some es => exact hn2 _ (assocFind_mem hf)
  refine ⟨assocSet_nodup _ _ _ hn1, ?_⟩
  intro p hp
  rcases assocSet_mem hp with rfl | hp2
  · exact assocSet_nodup _ _ _ hes0nodup
  · exact hn2 p hp2

/-- Lookup inside the migration of a serialised cache, at a directory whose
entry list is non-empty. -/
theorem migrateDirList_cacheFields_lookup (now : String) (c : ApprovalCache)
    (hn2 : ∀ p ∈ c, (p.2.map Prod.fst).Nodup) (dir : String)
    (es : List (String × ApprovalCacheEntry))
    (hdir : assocFind c dir = some es) (hne : es ≠ []) :
    assocFind (migrateDirList now (cacheFields c)) dir =
      some (es.map (fun p => (p.1, migrateEntryImage now p.2))) := by
  induction c with
  | nil => exact Option.noConfusion hdir
  | cons dp rest ih =>
      obtain ⟨d0, es0⟩ := dp
      have hjse : jsEntries (Json.obj (entriesToFields es0)) = entriesToFields es0 := by
        show jsFields (entriesToFields es0) = entriesToFields es0
        refine jsFields_nodup_id _ ?_
        rw [show (entriesToFields es0).map Prod.fst = es0.map Prod.fst from
          map_fst_map_val es0 _]
        exact hn2 _ (List.mem_cons_self _ _)
      by_cases hb : (d0 == dir) = true
      · have hes : es0 = es := by
          rw [assocFind_cons, if_pos hb] at hdir
          exact Option.some.inj hdir
        subst hes
        have hmg : migrateEntryList now (jsEntries (Json.obj (entriesToFields es0))) =
            es0.map (fun p => (p.1, migrateEntryImage now p.2)) := by
          rw [hjse]
          exact migrateEntryList_entriesToFields now es0
        have hmne : (migrateEntryList now
            (jsEntries (Json.obj (entriesToFields es0)))).isEmpty = false := by
          rw [hmg]
          cases es0 with
          | nil => exact absurd rfl hne
          | cons a b => rfl
        show assocFind (migrateDirList now
          ((d0, Json.obj (entriesToFields es0)) :: cacheFields rest)) dir = _
        rw [migrateDirList, hmg]
        rw [show (es0.map (fun p => (p.1, migrateEntryImage now p.2))).isEmpty = false from
          hmg ▸ hmne]
        simp only [Bool.false_eq_true, if_neg, not_false_iff]
        rw [assocFind_cons, if_pos hb]
      · have hdir2 : assocFind rest dir = some es := by
          rw [assocFind_cons, if_neg hb] at hdir
          exact hdir
        have base := ih (fun p hp => hn2 p (List.mem_cons_of_mem _ hp)) hdir2
        show assocFind (migrateDirList now
          ((d0, Json.obj (entriesToFields es0)) :: cacheFields rest)) dir = _
        rw [migrateDirList]
        by_cases hm : (migrateEntryList now
            (jsEntries (Json.obj (entriesToFields es0)))).isEmpty
        · rw [if_pos hm]
          exact base
        · rw [if_neg hm, assocFind_cons, if_neg hb]
          exact base

/-- The same at the top level of `migrateLegacyCache`. -/
theorem migrateLegacyCache_cacheToJson_lookup (now : String) (c : ApprovalCache)
    (hn : nodupCache c) (dir : String) (es : List (String × ApprovalCacheEntry))
    (hdir : assocFind c dir = some es) (hne : es ≠ []) :
    assocFind (migrateLegacyCache now (cacheToJson c)) dir =
      some (es.map (fun p => (p.1, migrateEntryImage now p.2))) := by
  obtain ⟨hn1, hn2⟩ := hn
  show assocFind (migrateDirList now (jsFields (cacheFields c))) dir = _
  rw [show jsFields (cacheFields c) = cacheFields c from
    jsFields_nodup_id _ (by
      rw [show (cacheFields c).map Prod.fst = c.map Prod.fst from map_fst_map_val c _]
      exact hn1)]
  exact migrateDirList_cacheFields_lookup now c hn2 dir es hdir hne

/-- After saving a duplicate-free cache, a lookup that found a schema-shaped
entry still finds an entry with the same decision and the same reason after
reloading at any later time — whether the reload re-validates or migrates. -/
theorem reload_lookup (now2 : String) (c : ApprovalCache) (hn : nodupCache c)
    (dir k : String) (es : List (String × ApprovalCacheEntry))
    (e : ApprovalCacheEntry) (hdir : assocFind c dir = some es)
    (hk : assocFind es k = some e) (hwf : wfEntry e) :
    ∃ e2, ((assocFind (loadCache now2 (saveCache c)).1 dir).bind
        (fun es2 => assocFind es2 k)) = some e2 ∧
      e2.decision = e.decision ∧ e2.reason = e.reason := by
  cases hp : parseApprovalCache (cacheToJson c) with
  | some c2 =>
      obtain ⟨hc2, _⟩ := parseApprovalCache_cacheToJson_inv c c2 hn hp
      have h1 : (loadCache now2 (saveCache c)).1 = c := by
        simp [loadCache, saveCache, hp, hc2]
      rw [h1, hdir]
      exact ⟨e, by simp [hk], rfl, rfl⟩
  | none =>
      have h1 : (loadCache now2 (saveCache c)).1 =
          migrateLegacyCache now2 (cacheToJson c) := by
        by_cases hm : (migrateLegacyCache now2 (cacheToJson c)).isEmpty <;>
          simp [loadCache, saveCache, hp, hm]
      have hne : es ≠ [] := by
        intro he
        rw [he] at hk
        exact Option.noConfusion hk
      have h2 := migrateLegacyCache_cacheToJson_lookup now2 c hn dir es hdir hne
      rw [h1, h2]
      refine ⟨migrateEntryImage now2 e, ?_, rfl, ?_⟩
      · simp [assocFind_map_val, hk]
      · obtain ⟨s, hs⟩ := hwf.2.2.1
        show jsOrElse (some e.reason) (.str "") = e.reason
        rw [hs, jsOrElse_str]

/-! ### C7 — the second identical request is served from the cache -/

/-- After a write-through under `(toolName, toolInput, workingDir)`, a new
pipeline run for the same triple (at any later time, with any reasoning
oracle) is answered from the cache: same decision, the stored reason
suffixed with " (cached)", and no reasoning-client call. -/
theorem autoApproveTools_second_run_hits (hookData : HookData) (workingDir : String)
    (config : Config) (llmConfigured2 : Bool) (llmResult2 : Except String ToolDecision)
    (d : CacheDecision) (reason now1 now2 : String) (f1 : FileContent)
    (hfast : shouldFastApprove hookData.tool_name hookData.tool_input = none)
    (hcache : config.cache = true) :
    (autoApproveTools hookData workingDir config false llmConfigured2 llmResult2 now2
      (setCachedDecision hookData.tool_name hookData.tool_input workingDir d reason
        now1 f1)).stdout =
      some ⟨d.toDecision, reason ++ " (cached)"⟩ ∧
    (autoApproveTools hookData workingDir config false llmConfigured2 llmResult2 now2
      (setCachedDecision hookData.tool_name hookData.tool_input workingDir d reason
        now1 f1)).llmCalls = 0 := by
  have hn : nodupCache (assocSet (loadCache now1 f1).1 workingDir
      (assocSet ((assocFind (loadCache now1 f1).1 workingDir).getD [])
        (generateCacheKey hookData.tool_name hookData.tool_input)
        ⟨.str hookData.tool_name, .obj hookData.tool_input, d, .str reason, .str now1⟩)) :=
    nodupCache_set _ _ _ _ (loadCache_nodup now1 f1)
  have hdir := assocFind_assocSet_same (loadCache now1 f1).1 workingDir
    (assocSet ((assocFind (loadCache now1 f1).1 workingDir).getD [])
      (generateCacheKey hookData.tool_name hookData.tool_input)
      ⟨.str hookData.tool_name, .obj hookData.tool_input, d, .str reason, .str now1⟩)
  have hk := assocFind_assocSet_same
    ((assocFind (loadCache now1 f1).1 workingDir).getD [])
    (generateCacheKey hookData.tool_name hookData.tool_input)
    (⟨.str hookData.tool_name, .obj hookData.tool_input, d, .str reason, .str now1⟩ :
      ApprovalCacheEntry)
  obtain ⟨e2, hlook, hdec, hreas⟩ := reload_lookup now2 _ hn workingDir
    (generateCacheKey hookData.tool_name hookData.tool_input) _ _ hdir hk
    (wfEntry_setEntry hookData.tool_name hookData.tool_input d reason now1)
  have hget2 : (getCachedDecision hookData.tool_name hookData.tool_input workingDir now2
      (setCachedDecision hookData.tool_name hookData.tool_input workingDir d reason
        now1 f1)).1 = some e2 := hlook
  rcases hp2 : getCachedDecision hookData.tool_name hookData.tool_input workingDir now2
      (setCachedDecision hookData.tool_name hookData.tool_input workingDir d reason
        now1 f1) with ⟨cd2, f2⟩
  have hcd2 : cd2 = some e2 := by rw [hp2] at hget2; exact hget2
  subst hcd2
  have hcc : (config.cache && !false) = true := by simp [hcache]
  constructor
  · have hout : (autoApproveTools hookData workingDir config false llmConfigured2
        llmResult2 now2 (setCachedDecision hookData.tool_name hookData.tool_input
          workingDir d reason now1 f1)).stdout =
        some ⟨e2.decision.toDecision, jsTemplateStr e2.reason ++ " (cached)"⟩ := by
      simp [autoApproveTools, hfast, hcc, hp2, hcache]
    rw [hout, hdec, hreas]
    simp [jsTemplateStr]
  · simp [autoApproveTools, hfast, hcc, hp2, hcache]

/-- C7: for a request the fast path does not resolve, with caching enabled,
a first invocation whose reasoning client returns `allow` or `deny` is
answered and written through, and a second invocation with the same
(toolName, toolInput, workingDirectory) — at any later time, whatever its
reasoning oracle would say — returns the same decision with the original
reason suffixed " (cached)" and performs zero reasoning-client calls. -/
theorem c7_idempotent_cached_replay (hookData : HookData) (workingDir : String)
    (config : Config) (llmConfigured2 : Bool) (llmResult2 : Except String ToolDecision)
    (td : ToolDecision) (now1 now2 : String) (file : FileContent)
    (hfast : shouldFastApprove hookData.tool_name hookData.tool_input = none)
    (hcache : config.cache = true)
    (hmiss : (getCachedDecision hookData.tool_name hookData.tool_input workingDir
      now1 file).1 = none)
    (hask : td.decision ≠ .ask) :
    (autoApproveTools hookData workingDir config false true (.ok td) now1 file).stdout =
      some ⟨td.decision, td.reason⟩ ∧
    (autoApproveTools hookData workingDir config false llmConfigured2 llmResult2 now2
      (autoApproveTools hookData workingDir config false true (.ok td) now1
        file).fileAfter).stdout =
      some ⟨td.decision, td.reason ++ " (cached)"⟩ ∧
    (autoApproveTools hookData workingDir config false llmConfigured2 llmResult2 now2
      (autoApproveTools hookData workingDir config false true (.ok td) now1
        file).fileAfter).llmCalls = 0 := by
  rcases td with ⟨dec, reason⟩
  rcases hp : getCachedDecision hookData.tool_name hookData.tool_input workingDir
      now1 file with ⟨cd, f1⟩
  have hcd : cd = none := by rw [hp] at hmiss; exact hmiss
  subst hcd
  have hcc : (config.cache && !false) = true := by simp [hcache]
  have hrun1 : autoApproveTools hookData workingDir config false true
      (.ok ⟨dec, reason⟩) now1 file =
      llmStage hookData workingDir true true (.ok ⟨dec, reason⟩) now1 1 f1 := by
    simp [autoApproveTools, hfast, hcc, hcache, hp]
  cases dec with
  | ask => exact absurd rfl hask
  | allow =>
      have hstdout1 : (autoApproveTools hookData workingDir config false true
          (.ok ⟨.allow, reason⟩) now1 file).stdout = some ⟨.allow, reason⟩ := by
        rw [hrun1]; simp [llmStage]
      have hfa : (autoApproveTools hookData workingDir config false true
          (.ok ⟨.allow, reason⟩) now1 file).fileAfter =
          setCachedDecision hookData.tool_name hookData.tool_input workingDir .allow
            reason now1 f1 := by
        rw [hrun1]; simp [llmStage]
      rw [hstdout1, hfa]
      exact ⟨rfl, autoApproveTools_second_run_hits hookData workingDir config
        llmConfigured2 llmResult2 .allow reason now1 now2 f1 hfast hcache⟩
  | deny =>
      have hstdout1 : (autoApproveTools hookData workingDir config false true
          (.ok ⟨.deny, reason⟩) now1 file).stdout = some ⟨.deny, reason⟩ := by
        rw [hrun1]; simp [llmStage]
      have hfa : (autoApproveTools hookData workingDir config false true
          (.ok ⟨.deny, reason⟩) now1 file).fileAfter =
          setCachedDecision hookData.tool_name hookData.tool_input workingDir .deny
            reason now1 f1 := by
        rw [hrun1]; simp [llmStage]
      rw [hstdout1, hfa]
      exact ⟨rfl, autoApproveTools_second_run_hits hookData workingDir config
        llmConfigured2 llmResult2 .deny reason now1 now2 f1 hfast hcache⟩

/-- C7 witness: a concrete Bash request allowed by the reasoning client on
an empty cache is replayed from the cache on the second run. -/
theorem c7_idempotent_cached_replay_witness :
    (autoApproveTools ⟨"s1", "/t", "Bash", [("command", .str "ls")]⟩ "/proj"
      ⟨true, true⟩ false true (.ok ⟨.allow, "listing is safe"⟩) "T1" .absent).stdout =
      some ⟨.allow, "listing is safe"⟩ ∧
    (autoApproveTools ⟨"s1", "/t", "Bash", [("command", .str "ls")]⟩ "/proj"
      ⟨true, true⟩ false false (.error "down") "T2"
      (autoApproveTools ⟨"s1", "/t", "Bash", [("command", .str "ls")]⟩ "/proj"
        ⟨true, true⟩ false true (.ok ⟨.allow, "listing is safe"⟩) "T1"
        .absent).fileAfter).stdout =
      some ⟨.allow, "listing is safe (cached)"⟩ ∧
    (autoApproveTools ⟨"s1", "/t", "Bash", [("command", .str "ls")]⟩ "/proj"
      ⟨true, true⟩ false false (.error "down") "T2"
      (autoApproveTools ⟨"s1", "/t", "Bash", [("command", .str "ls")]⟩ "/proj"
        ⟨true, true⟩ false true (.ok ⟨.allow, "listing is safe"⟩) "T1"
        .absent).fileAfter).llmCalls = 0 :=
  c7_idempotent_cached_replay ⟨"s1", "/t", "Bash", [("command", .str "ls")]⟩ "/proj"
    ⟨true, true⟩ false (.error "down") ⟨.allow, "listing is safe"⟩ "T1" "T2" .absent
    rfl rfl rfl (by decide)
